import Mathlib

/-!
# gandalf, package `user`: identity lifecycle and access revocation

Shallow embedding of `src/user/user.go` (`New`, `isValid`, `Remove`,
`handleAssociatedRepositories`, `AddKey`).

* Go strings are Lean `String`s; a name is matched rune by rune (`String.data`).
* The two mgo collections are lists of documents in natural order, at most one
  document per `_id` in a well-formed store.
* Every write sent to the store and every call of package `key` is appended to
  `State.trace`, whether or not it succeeds, so that "no call is made" and
  "called before" are statements about the trace.
* Failures of the store and of the gateway are decided by an `Env`: the code is
  a function of the environment, its arguments and the state.
-/

namespace Gandalf

/-! ## The regular expression of `isValid` -/

/-- The fragment of Go `regexp/syntax` that the pattern of `isValid` uses. -/
inductive Regexp where
  /-- A character class `[...]` or `[^...]`, as a list of inclusive ranges. -/
  | charClass (negated : Bool) (ranges : List (Char × Char))
  /-- The anchor `^` without the multi-line flag: the beginning of the text. -/
  | beginText
  /-- The anchor `$` without the multi-line flag: the end of the text. -/
  | endText
  | concat (a b : Regexp)
  | alternate (a b : Regexp)
  /-- A capturing group `( ... )`. -/
  | capture (a : Regexp)

/-- Membership of a rune in a list of inclusive ranges. -/
def inRanges (c : Char) : List (Char × Char) → Bool
  | [] => false
  | (lo, hi) :: rs => (decide (lo.toNat ≤ c.toNat) && decide (c.toNat ≤ hi.toNat)) || inRanges c rs

/-- All positions at which a match of the expression that starts at position `i`
of the text `t` can end. -/
def Regexp.ends : Regexp → List Char → Nat → List Nat
  | .charClass negated ranges, t, i =>
    match t.get? i with
    | some c => if inRanges c ranges != negated then [i + 1] else []
    | none => []
  | .beginText, _, i => if i = 0 then [i] else []
  | .endText, t, i => if i = t.length then [i] else []
  | .concat a b, t, i => (a.ends t i).flatMap (fun j => b.ends t j)
  | .alternate a b, t, i => a.ends t i ++ b.ends t i
  | .capture a, t, i => a.ends t i

/-- Go `regexp.Match`: the text contains a match of the expression, starting at
any position (the search is not anchored). -/
def regexpMatch (re : Regexp) (t : List Char) : Bool :=
  (List.range (t.length + 1)).any (fun i => !(re.ends t i).isEmpty)

/-- The class `\s` of Go regexp: `[\t\n\f\r ]`. -/
def whitespaceClass : Regexp :=
  .charClass false
    [(Char.ofNat 9, Char.ofNat 9), (Char.ofNat 10, Char.ofNat 10), (Char.ofNat 12, Char.ofNat 12),
     (Char.ofNat 13, Char.ofNat 13), (Char.ofNat 32, Char.ofNat 32)]

/-- The items of the class `[^aA-zZ0-9\.@]`, in the order written:
`a`, `A-z`, `Z`, `0-9`, `\.`, `@`. -/
def nameRanges : List (Char × Char) :=
  [('a', 'a'), ('A', 'z'), ('Z', 'Z'), ('0', '9'), ('.', '.'), ('@', '@')]

/-- The pattern of `isValid`, `\s|[^aA-zZ0-9\.@]|(^$)`. -/
def namePattern : Regexp :=
  .alternate (.alternate whitespaceClass (.charClass true nameRanges))
    (.capture (.concat .beginText .endText))

/-! ## Data model -/

/-- The Go struct `User`: `Name` is the `_id` of the document. -/
structure User where
  Name : String
  Keys : List String
  deriving DecidableEq, Repr

/-- Modelled from the spec: the struct `repository.Repository` is declared
outside `user.go`; this is the Repository-Access-Record of the data model, a
`name` (the `_id`) and the `users` list. -/
structure Repository where
  Name : String
  Users : List String
  deriving DecidableEq, Repr

/-- An error reported by the document store. -/
inductive StoreError where
  /-- No document matches: `mgo.ErrNotFound`. -/
  | notFound
  /-- An insert whose `_id` is already taken. -/
  | duplicateKey
  /-- The store is unreachable or rejects the call. -/
  | fault (msg : String)
  deriving DecidableEq, Repr

/-- The errors that `user.go` returns, by the place that builds them. -/
inductive Error where
  /-- The error `errors.New("Validation Error: user name is not valid")`. -/
  | validation
  /-- The error `errors.New("Could not remove user: user is the only one with
  access to at least one of it's repositories")`. -/
  | conflict
  /-- The error `fmt.Errorf("Could not remove user: %s", err)`. -/
  | couldNotRemove (cause : StoreError)
  /-- The error `fmt.Errorf("User \"%s\" not found", uName)`. -/
  | userNotFound (name : String)
  /-- An error of the store returned as it is. -/
  | store (cause : StoreError)
  /-- An error of package `key` returned as it is. -/
  | gateway (msg : String)
  deriving DecidableEq, Repr

/-- Modelled from the spec: package `key` is outside `user.go`; these are the four
operations of the Key-Authorization Gateway, each tagged with an identity name. -/
inductive GatewayCall where
  | add (key name : String)
  | remove (key name : String)
  | bulkAdd (keys : List String) (name : String)
  | bulkRemove (keys : List String) (name : String)
  deriving DecidableEq, Repr

/-- A write sent to the store, or a call of the gateway. -/
inductive Call where
  /-- The call `db.Session.User().Insert`. -/
  | userInsert (u : User)
  /-- The call `db.Session.User().UpdateId`. -/
  | userUpdateId (id : String) (u : User)
  /-- The call `db.Session.User().RemoveId`. -/
  | userRemoveId (id : String)
  /-- The call `db.Session.Repository().Update` with the selector `_id`. -/
  | repoUpdate (id : String) (r : Repository)
  | gateway (c : GatewayCall)
  deriving DecidableEq, Repr

/-- The identity collection, the repository collection, and the writes and
gateway calls made so far. -/
structure State where
  users : List User
  repos : List Repository
  trace : List Call
  deriving DecidableEq, Repr

/-- What the collaborators answer: for each call, `none` when it goes through and
`some msg` when the store (or the gateway) fails with that message. -/
structure Env where
  failUserFind : String → Option String
  failRepoFind : String → Option String
  failUserInsert : User → Option String
  failUserUpdate : String → User → Option String
  failUserRemove : String → Option String
  failRepoUpdate : String → Repository → Option String
  failGateway : GatewayCall → Option String

/-! ## The document store -/

/-- The first document with the given `_id`. -/
def lookupDoc {α : Type} (key : α → String) (id : String) : List α → Option α
  | [] => none
  | d :: ds => if key d = id then some d else lookupDoc key id ds

/-- Replace the first document with the given `_id`; `none` when there is none. -/
def replaceDoc {α : Type} (key : α → String) (id : String) (new : α) : List α → Option (List α)
  | [] => none
  | d :: ds =>
    if key d = id then some (new :: ds)
    else match replaceDoc key id new ds with
      | some ds1 => some (d :: ds1)
      | none => none

/-- Delete the first document with the given `_id`; `none` when there is none. -/
def deleteDoc {α : Type} (key : α → String) (id : String) : List α → Option (List α)
  | [] => none
  | d :: ds =>
    if key d = id then some ds
    else match deleteDoc key id ds with
      | some ds1 => some (d :: ds1)
      | none => none

/-- The calls `User().Find(bson.M{"_id": name}).One` and `User().FindId(name).One`. -/
def userFindOne (env : Env) (name : String) (s : State) : Except StoreError User :=
  match env.failUserFind name with
  | some msg => .error (.fault msg)
  | none =>
    match lookupDoc User.Name name s.users with
    | some u => .ok u
    | none => .error .notFound

/-- The call `User().Insert`. -/
def userInsert (env : Env) (u : User) (s : State) : Option StoreError × State :=
  let s1 := { s with trace := s.trace ++ [Call.userInsert u] }
  match env.failUserInsert u with
  | some msg => (some (.fault msg), s1)
  | none =>
    match lookupDoc User.Name u.Name s.users with
    | some _ => (some .duplicateKey, s1)
    | none => (none, { s1 with users := s.users ++ [u] })

/-- The call `User().UpdateId`. -/
def userUpdateId (env : Env) (id : String) (u : User) (s : State) : Option StoreError × State :=
  let s1 := { s with trace := s.trace ++ [Call.userUpdateId id u] }
  match env.failUserUpdate id u with
  | some msg => (some (.fault msg), s1)
  | none =>
    match replaceDoc User.Name id u s.users with
    | some us => (none, { s1 with users := us })
    | none => (some .notFound, s1)

/-- The call `User().RemoveId`. -/
def userRemoveId (env : Env) (id : String) (s : State) : Option StoreError × State :=
  let s1 := { s with trace := s.trace ++ [Call.userRemoveId id] }
  match env.failUserRemove id with
  | some msg => (some (.fault msg), s1)
  | none =>
    match deleteDoc User.Name id s.users with
    | some us => (none, { s1 with users := us })
    | none => (some .notFound, s1)

/-- The call `Repository().Find(bson.M{"users": name}).All`: the repositories whose
`users` array contains the name, in natural order. -/
def repoFindAll (env : Env) (name : String) (s : State) : Except StoreError (List Repository) :=
  match env.failRepoFind name with
  | some msg => .error (.fault msg)
  | none => .ok (s.repos.filter (fun r => decide (name ∈ r.Users)))

/-- The call `Repository().Update(bson.M{"_id": id}, r)`. -/
def repoUpdate (env : Env) (id : String) (r : Repository) (s : State) : Option StoreError × State :=
  let s1 := { s with trace := s.trace ++ [Call.repoUpdate id r] }
  match env.failRepoUpdate id r with
  | some msg => (some (.fault msg), s1)
  | none =>
    match replaceDoc Repository.Name id r s.repos with
    | some rs => (none, { s1 with repos := rs })
    | none => (some .notFound, s1)

/-- A call of package `key`: it is recorded, and its error is the one the gateway
answers. -/
def gatewayCall (env : Env) (c : GatewayCall) (s : State) : Option Error × State :=
  (match env.failGateway c with
    | some msg => some (Error.gateway msg)
    | none => none,
   { s with trace := s.trace ++ [Call.gateway c] })

/-- The call `key.BulkAdd(keys, name, filesystem())`. -/
def keyBulkAdd (env : Env) (keys : List String) (name : String) (s : State) : Option Error × State :=
  gatewayCall env (.bulkAdd keys name) s

/-- The call `key.BulkRemove(keys, name, filesystem())`. -/
def keyBulkRemove (env : Env) (keys : List String) (name : String) (s : State) :
    Option Error × State :=
  gatewayCall env (.bulkRemove keys name) s

/-- The call `key.Add(k, name, filesystem())`. -/
def keyAdd (env : Env) (k : String) (name : String) (s : State) : Option Error × State :=
  gatewayCall env (.add k name) s

/-! ## `user.go` -/

/-- The method `isValid`: the name is rejected when the pattern matches it. The
pattern compiles, so the `panic` branch is not reached. -/
def User.isValid (u : User) : Bool × Option Error :=
  let m := regexpMatch namePattern u.Name.data
  if m then (false, some Error.validation) else (true, none)

/-- The function `New`. -/
def New (env : Env) (name : String) (keys : List String) (s : State) :
    (User × Option Error) × State :=
  let u : User := { Name := name, Keys := keys }
  match u.isValid with
  | (false, err) => ((u, err), s)
  | (true, _) =>
    match userInsert env u s with
    | (some e, s1) => ((u, some (Error.store e)), s1)
    | (none, s1) =>
      match keyBulkAdd env keys name s1 with
      | (err, s2) => ((u, err), s2)

/-- The first loop of `handleAssociatedRepositories`: stop at the first repository
with exactly one user. -/
def guardLoop : List Repository → Option Error
  | [] => none
  | r :: rs => if r.Users.length = 1 then some Error.conflict else guardLoop rs

/-- The scan `for i, v := range r.Users` up to its `break`: the index of the first
`v == u.Name`, counted from `i`. -/
def firstIndex (name : String) : List String → Nat → Option Nat
  | [], _ => none
  | v :: vs, i => if v = name then some i else firstIndex name vs (i + 1)

/-- The assignment
`r.Users[i], r.Users = r.Users[len(r.Users)-1], r.Users[:len(r.Users)-1]`:
both right-hand sides are read first, then slot `i` receives the last element
and the slice loses its last slot. The slice is not empty where the loop reaches
this line, since slot `i` holds the name. -/
def swapRemove (users : List String) (i : Nat) : List String :=
  match users.getLast? with
  | some last => (users.set i last).take (users.length - 1)
  | none => users

/-- The second loop of `handleAssociatedRepositories`: for each repository of the
query, in order, drop the first occurrence of the name and write the document;
the first failed write ends the loop. -/
def revokeLoop (env : Env) (name : String) : List Repository → State → Option Error × State
  | [], s => (none, s)
  | r :: rs, s =>
    match firstIndex name r.Users 0 with
    | none => revokeLoop env name rs s
    | some i =>
      match repoUpdate env r.Name { r with Users := swapRemove r.Users i } s with
      | (some e, s1) => (some (Error.store e), s1)
      | (none, s1) => revokeLoop env name rs s1

/-- The method `handleAssociatedRepositories`. -/
def User.handleAssociatedRepositories (u : User) (env : Env) (s : State) : Option Error × State :=
  match repoFindAll env u.Name s with
  | .error e => (some (Error.store e), s)
  | .ok repos =>
    match guardLoop repos with
    | some e => (some e, s)
    | none => revokeLoop env u.Name repos s

/-- The function `Remove`. -/
def Remove (env : Env) (name : String) (s : State) : Option Error × State :=
  match userFindOne env name s with
  | .error e => (some (Error.couldNotRemove e), s)
  | .ok u =>
    match u.handleAssociatedRepositories env s with
    | (some e, s1) => (some e, s1)
    | (none, s1) =>
      match userRemoveId env u.Name s1 with
      | (some e, s2) => (some (Error.couldNotRemove e), s2)
      | (none, s2) => keyBulkRemove env u.Keys u.Name s2

/-- The function `AddKey`: any error of the lookup is reported as "not found". -/
def AddKey (env : Env) (uName k : String) (s : State) : Option Error × State :=
  match userFindOne env uName s with
  | .error _ => (some (Error.userNotFound uName), s)
  | .ok u =>
    let u1 : User := { u with Keys := u.Keys ++ [k] }
    match userUpdateId env u1.Name u1 s with
    | (some e, s1) => (some (Error.store e), s1)
    | (none, s1) => keyAdd env k u1.Name s1

/-! ## Vocabulary of the properties -/

/-- An environment in which every call goes through. -/
def Env.ok : Env where
  failUserFind := fun _ => none
  failRepoFind := fun _ => none
  failUserInsert := fun _ => none
  failUserUpdate := fun _ _ => none
  failUserRemove := fun _ => none
  failRepoUpdate := fun _ _ => none
  failGateway := fun _ => none

/-- The grammar of the specification, `[A-Za-z0-9.@]`: an ASCII letter, a digit,
`.` or `@`. -/
def grammarRanges : List (Char × Char) :=
  [('A', 'Z'), ('a', 'z'), ('0', '9'), ('.', '.'), ('@', '@')]

/-- What the second loop writes for a repository: its users with the first
occurrence of the name swap-removed; the repository itself when the name does not
occur in it. -/
def revoke (name : String) (r : Repository) : Repository :=
  match firstIndex name r.Users 0 with
  | some i => { r with Users := swapRemove r.Users i }
  | none => r

/-- The language that the claim on `isValid` states, rune by rune: a digit, `.`,
`@`, or a code point from `A` (U+0041) to `z` (U+007A). -/
def acceptedRanges : List (Char × Char) :=
  [('0', '9'), ('.', '.'), ('@', '@'), ('A', 'z')]

/-- The verdict of the guard phase for a name on a repository collection: the
first loop of `handleAssociatedRepositories` run on the answer of the query. -/
def guardVerdict (name : String) (repos : List Repository) : Option Error :=
  guardLoop (repos.filter (fun r => decide (name ∈ r.Users)))

/-- An environment in which the update of the repository `id` fails with `msg`
and every other call goes through. -/
def Env.repoUpdateFails (id msg : String) : Env :=
  { Env.ok with failRepoUpdate := fun i _ => if i = id then some msg else none }

/-- An environment in which `RemoveId` fails with `msg` and every other call goes
through. -/
def Env.userRemoveFails (msg : String) : Env :=
  { Env.ok with failUserRemove := fun _ => some msg }

/-- Every repository has at least one user. -/
def State.everyRepoHasUser (s : State) : Prop :=
  ∀ r ∈ s.repos, r.Users ≠ []

/-- A sequence of `Remove` calls, each in its own environment, that each succeed:
`some` of the final state, and `none` as soon as one call returns an error. -/
def removeEach : List (Env × String) → State → Option State
  | [], s => some s
  | (env, name) :: rest, s =>
    match Remove env name s with
    | (none, s1) => removeEach rest s1
    | (some _, _) => none

/-! ## The accepted names -/

theorem ends_charClass_ne_nil (neg : Bool) (rs : List (Char × Char)) (t : List Char) (i : Nat) :
    (Regexp.charClass neg rs).ends t i ≠ [] ↔ ∃ c, t.get? i = some c ∧ inRanges c rs ≠ neg := by
  unfold Regexp.ends
  cases h : t.get? i with
  | none => simp
  | some c =>
    by_cases hc : inRanges c rs = neg <;> simp [hc]

theorem whitespace_not_name (c : Char)
    (h : inRanges c [(Char.ofNat 9, Char.ofNat 9), (Char.ofNat 10, Char.ofNat 10),
      (Char.ofNat 12, Char.ofNat 12), (Char.ofNat 13, Char.ofNat 13),
      (Char.ofNat 32, Char.ofNat 32)] = true) :
    inRanges c nameRanges = false := by
  simp [inRanges, nameRanges] at h ⊢
  omega

theorem grammar_subset_name (c : Char) (h : inRanges c grammarRanges = true) :
    inRanges c nameRanges = true := by
  simp [inRanges, nameRanges, grammarRanges] at h ⊢
  omega

theorem ends_namePattern_ne_nil (t : List Char) (i : Nat) :
    namePattern.ends t i ≠ [] ↔
      (∃ c, t.get? i = some c ∧ inRanges c nameRanges = false) ∨ (i = 0 ∧ t = []) := by
  have hw := ends_charClass_ne_nil false
    [(Char.ofNat 9, Char.ofNat 9), (Char.ofNat 10, Char.ofNat 10),
      (Char.ofNat 12, Char.ofNat 12), (Char.ofNat 13, Char.ofNat 13),
      (Char.ofNat 32, Char.ofNat 32)] t i
  have hn := ends_charClass_ne_nil true nameRanges t i
  have hb : (Regexp.capture (.concat .beginText .endText)).ends t i ≠ [] ↔ (i = 0 ∧ t = []) := by
    simp only [Regexp.ends]
    by_cases h0 : i = 0
    · subst h0
      cases t <;> simp
    · simp [h0]
  unfold namePattern whitespaceClass
  rw [Regexp.ends, Regexp.ends]
  simp only [ne_eq, List.append_eq_nil, not_and_or] at *
  rw [hw, hn, hb]
  constructor
  · rintro ((⟨c, hc, hr⟩ | ⟨c, hc, hr⟩) | h)
    · exact Or.inl ⟨c, hc, whitespace_not_name c (by simpa using hr)⟩
    · exact Or.inl ⟨c, hc, by simpa using hr⟩
    · exact Or.inr h
  · rintro (⟨c, hc, hr⟩ | h)
    · exact Or.inl (Or.inr ⟨c, hc, by simp [hr]⟩)
    · exact Or.inr h

theorem regexpMatch_namePattern (t : List Char) :
    regexpMatch namePattern t = true ↔ t = [] ∨ ∃ c ∈ t, inRanges c nameRanges = false := by
  unfold regexpMatch
  rw [List.any_eq_true]
  constructor
  · rintro ⟨i, -, hi⟩
    have hi1 : namePattern.ends t i ≠ [] := by
      intro h
      simp [h] at hi
    rcases (ends_namePattern_ne_nil t i).1 hi1 with ⟨c, hc, hr⟩ | ⟨-, ht⟩
    · exact Or.inr ⟨c, List.get?_mem hc, hr⟩
    · exact Or.inl ht
  · rintro (ht | ⟨c, hc, hr⟩)
    · subst ht
      exact ⟨0, by simp, by decide⟩
    · obtain ⟨i, hget⟩ := List.mem_iff_get?.1 hc
      have hi : i < t.length := (List.get?_eq_some.1 hget).1
      refine ⟨i, by simp; omega, ?_⟩
      have : namePattern.ends t i ≠ [] := (ends_namePattern_ne_nil t i).2 (Or.inl ⟨c, hget, hr⟩)
      cases h : namePattern.ends t i with
      | nil => exact absurd h this
      | cons _ _ => rfl

theorem isValid_iff (u : User) :
    u.isValid = (true, none) ↔
      u.Name.data ≠ [] ∧ ∀ c ∈ u.Name.data, inRanges c nameRanges = true := by
  unfold User.isValid
  have h := regexpMatch_namePattern u.Name.data
  cases hm : regexpMatch namePattern u.Name.data with
  | true =>
    simp only [hm, if_true, true_iff] at h ⊢
    constructor
    · intro h1; cases h1
    · rintro ⟨hne, hall⟩
      rcases h with h | ⟨c, hc, hr⟩
      · exact absurd h hne
      · rw [hall c hc] at hr; cases hr
  | false =>
    simp only [hm, Bool.false_eq_true, if_false, true_iff, false_iff, not_or, not_exists, not_and] at h ⊢
    exact ⟨h.1, fun c hc => by simpa using h.2 c hc⟩

theorem isValid_of_not (u : User) (h : u.isValid ≠ (true, none)) :
    u.isValid = (false, some Error.validation) := by
  unfold User.isValid at *
  cases hm : regexpMatch namePattern u.Name.data <;> simp_all

/-! ## The document store -/

theorem lookupDoc_key {α : Type} (key : α → String) (id : String) (ds : List α) (d : α)
    (h : lookupDoc key id ds = some d) : key d = id ∧ d ∈ ds := by
  induction ds with
  | nil => simp [lookupDoc] at h
  | cons x xs ih =>
    unfold lookupDoc at h
    by_cases hx : key x = id
    · simp [hx] at h
      subst h
      exact ⟨hx, List.mem_cons_self _ _⟩
    · simp [hx] at h
      exact ⟨(ih h).1, List.mem_cons_of_mem _ (ih h).2⟩

theorem lookupDoc_eq_none {α : Type} (key : α → String) (id : String) (ds : List α) :
    lookupDoc key id ds = none ↔ ∀ d ∈ ds, key d ≠ id := by
  induction ds with
  | nil => simp [lookupDoc]
  | cons x xs ih =>
    unfold lookupDoc
    by_cases hx : key x = id <;> simp [hx, ih]

theorem lookupDoc_append_of_none {α : Type} (key : α → String) (id : String) (ds : List α) (d : α)
    (h : lookupDoc key id ds = none) (hd : key d = id) :
    lookupDoc key id (ds ++ [d]) = some d := by
  induction ds with
  | nil => simp [lookupDoc, hd]
  | cons x xs ih =>
    unfold lookupDoc at h
    by_cases hx : key x = id
    · simp [hx] at h
    · simp only [hx, if_false] at h
      simp [lookupDoc, hx, ih h]

theorem lookupDoc_append_of_ne {α : Type} (key : α → String) (id : String) (ds : List α) (d : α)
    (hd : key d ≠ id) :
    lookupDoc key id (ds ++ [d]) = lookupDoc key id ds := by
  induction ds with
  | nil => simp [lookupDoc, hd]
  | cons x xs ih =>
    by_cases hx : key x = id <;> simp [lookupDoc, hx, ih]

theorem replaceDoc_of_lookup {α : Type} (key : α → String) (id : String) (new : α) (ds : List α)
    (d : α) (h : lookupDoc key id ds = some d) :
    ∃ ds1, replaceDoc key id new ds = some ds1 := by
  induction ds with
  | nil => simp [lookupDoc] at h
  | cons x xs ih =>
    unfold lookupDoc at h
    unfold replaceDoc
    by_cases hx : key x = id
    · exact ⟨new :: xs, by simp [hx]⟩
    · simp only [hx, if_false] at h
      obtain ⟨ds1, h1⟩ := ih h
      exact ⟨x :: ds1, by simp [hx, h1]⟩

theorem lookupDoc_replaceDoc {α : Type} (key : α → String) (id : String) (new : α) (ds ds1 : List α)
    (h : replaceDoc key id new ds = some ds1) (hn : key new = id) (id1 : String) :
    lookupDoc key id1 ds1 = if id1 = id then some new else lookupDoc key id1 ds := by
  induction ds generalizing ds1 with
  | nil => simp [replaceDoc] at h
  | cons x xs ih =>
    unfold replaceDoc at h
    by_cases hx : key x = id
    · simp only [hx, if_true, Option.some.injEq] at h
      subst h
      by_cases h1 : id1 = id
      · simp [lookupDoc, hn, h1]
      · have h2 : ¬ key new = id1 := by rw [hn]; exact fun e => h1 e.symm
        have h3 : ¬ key x = id1 := by rw [hx]; exact fun e => h1 e.symm
        simp [lookupDoc, h1, h2, h3]
    · simp only [hx, if_false] at h
      cases hr : replaceDoc key id new xs with
      | none => simp [hr] at h
      | some ys =>
        simp only [hr, Option.some.injEq] at h
        subst h
        have := ih ys hr
        by_cases h1 : id1 = id
        · subst h1
          simp only [if_true] at this ⊢
          simp [lookupDoc, hx, this]
        · simp only [h1, if_false] at this ⊢
          simp [lookupDoc, this]

theorem deleteDoc_of_lookup {α : Type} [DecidableEq α] (key : α → String) (id : String)
    (ds : List α) (d : α) (h : lookupDoc key id ds = some d) :
    deleteDoc key id ds = some (ds.erase d) := by
  induction ds with
  | nil => simp [lookupDoc] at h
  | cons x xs ih =>
    unfold lookupDoc at h
    unfold deleteDoc
    by_cases hx : key x = id
    · simp only [hx, if_true, Option.some.injEq] at h
      subst h
      simp [hx]
    · simp only [hx, if_false] at h
      have hne : x ≠ d := by
        intro e
        subst e
        exact hx (lookupDoc_key key id xs x h).1
      simp [hx, ih h, List.erase_cons_tail, hne]

theorem lookupDoc_erase_of_ne {α : Type} [DecidableEq α] (key : α → String) (id : String)
    (ds : List α) (d : α) (hd : key d ≠ id) :
    lookupDoc key id (ds.erase d) = lookupDoc key id ds := by
  induction ds with
  | nil => simp
  | cons x xs ih =>
    by_cases hxd : x = d
    · subst hxd
      simp [lookupDoc, hd]
    · rw [List.erase_cons_tail (by simpa using hxd)]
      by_cases hx : key x = id <;> simp [lookupDoc, hx, ih]

theorem lookupDoc_erase_self {α : Type} [DecidableEq α] (key : α → String) (id : String)
    (ds : List α) (d : α) (h : lookupDoc key id ds = some d) (hnd : (ds.map key).Nodup) :
    lookupDoc key id (ds.erase d) = none := by
  rw [lookupDoc_eq_none]
  intro e he hk
  have hd := lookupDoc_key key id ds d h
  have hmem : e ∈ ds := List.mem_of_mem_erase he
  have heq : e = d := by
    have := List.inj_on_of_nodup_map hnd hmem hd.2 (hk.trans hd.1.symm)
    exact this
  subst heq
  have hnd2 : ds.Nodup := List.Nodup.of_map key hnd
  exact (List.Nodup.mem_erase_iff hnd2).1 he |>.1 rfl


/-! ## `New` -/

theorem New_of_valid (env : Env) (name : String) (keys : List String) (s : State)
    (hv : (User.mk name keys).isValid = (true, none)) :
    New env name keys s =
      match userInsert env ⟨name, keys⟩ s with
      | (some e, s1) => ((⟨name, keys⟩, some (Error.store e)), s1)
      | (none, s1) => ((⟨name, keys⟩, (keyBulkAdd env keys name s1).1), (keyBulkAdd env keys name s1).2) := by
  unfold New
  simp only [hv]

theorem userInsert_trace (env : Env) (u : User) (s : State) :
    (userInsert env u s).2.trace = s.trace ++ [Call.userInsert u] ∧
      (userInsert env u s).2.repos = s.repos := by
  unfold userInsert
  cases env.failUserInsert u <;> cases lookupDoc User.Name u.Name s.users <;> simp

theorem userInsert_ok (env : Env) (u : User) (s : State) (h : (userInsert env u s).1 = none) :
    lookupDoc User.Name u.Name s.users = none ∧ (userInsert env u s).2.users = s.users ++ [u] := by
  unfold userInsert at h ⊢
  cases h1 : env.failUserInsert u <;> cases h2 : lookupDoc User.Name u.Name s.users <;>
    simp [h1, h2] at h ⊢

theorem userInsert_failed (env : Env) (u : User) (s : State) (e : StoreError)
    (h : (userInsert env u s).1 = some e) : (userInsert env u s).2.users = s.users := by
  unfold userInsert at h ⊢
  cases h1 : env.failUserInsert u <;> cases h2 : lookupDoc User.Name u.Name s.users <;>
    simp [h1, h2] at h ⊢

/-- C3 (the code departs from the claim): the name `a_b` contains `_`, a
character outside `[A-Za-z0-9.@]`, and yet `isValid` accepts it and `New`
inserts the record and calls the gateway. -/
theorem New_accepts_underscore :
    '_' ∈ "a_b".data ∧ inRanges '_' grammarRanges = false ∧
    (User.mk "a_b" ["k"]).isValid = (true, none) ∧
    New Env.ok "a_b" ["k"] ⟨[], [], []⟩ =
      ((⟨"a_b", ["k"]⟩, none),
       ⟨[⟨"a_b", ["k"]⟩], [],
        [Call.userInsert ⟨"a_b", ["k"]⟩, Call.gateway (GatewayCall.bulkAdd ["k"] "a_b")]⟩) := by
  decide

/-- C7: for a name that `isValid` accepts and whose insert succeeds, and for any
list of keys, `New` makes exactly one call of the gateway, after the insert: the
bulk-add of the supplied keys, in the order supplied, tagged with the name. -/
theorem New_propagates_keys (env : Env) (name : String) (keys : List String) (s : State)
    (hv : (User.mk name keys).isValid = (true, none))
    (hins : (userInsert env ⟨name, keys⟩ s).1 = none) :
    (New env name keys s).2.trace =
      s.trace ++ [Call.userInsert ⟨name, keys⟩, Call.gateway (GatewayCall.bulkAdd keys name)] := by
  rw [New_of_valid env name keys s hv]
  have ht := (userInsert_trace env ⟨name, keys⟩ s).1
  rcases hi : userInsert env ⟨name, keys⟩ s with ⟨_ | e, s1⟩
  · rw [hi] at ht
    simp only [keyBulkAdd, gatewayCall] at ht ⊢
    simp [ht]
  · rw [hi] at hins
    cases hins

theorem New_propagates_keys_witness :
    (New Env.ok "alice" ["keyA", "keyB"] ⟨[], [], []⟩).2.trace =
      ([] : List Call) ++ [Call.userInsert ⟨"alice", ["keyA", "keyB"]⟩,
        Call.gateway (GatewayCall.bulkAdd ["keyA", "keyB"] "alice")] :=
  New_propagates_keys Env.ok "alice" ["keyA", "keyB"] ⟨[], [], []⟩ (by decide) (by decide)

/-- C8: in `New`, for a name that `isValid` accepts, the insert is sent before
the gateway is called. When the insert succeeds the store holds the record
`{name, keys}` whatever the gateway answers, and the error of `New` is the answer
of the bulk-add; when the insert fails with `e`, `New` returns `e`, the identity
collection is unchanged and the gateway is not called. -/
theorem New_insert_then_gateway (env : Env) (name : String) (keys : List String) (s : State)
    (hv : (User.mk name keys).isValid = (true, none)) :
    ((userInsert env ⟨name, keys⟩ s).1 = none →
      (New env name keys s).2.users = s.users ++ [⟨name, keys⟩] ∧
      lookupDoc User.Name name (New env name keys s).2.users = some ⟨name, keys⟩ ∧
      (New env name keys s).2.trace =
        s.trace ++ [Call.userInsert ⟨name, keys⟩, Call.gateway (GatewayCall.bulkAdd keys name)] ∧
      (New env name keys s).1 =
        (⟨name, keys⟩, (env.failGateway (GatewayCall.bulkAdd keys name)).map Error.gateway)) ∧
    (∀ e, (userInsert env ⟨name, keys⟩ s).1 = some e →
      (New env name keys s).1 = (⟨name, keys⟩, some (Error.store e)) ∧
      (New env name keys s).2.users = s.users ∧
      (New env name keys s).2.trace = s.trace ++ [Call.userInsert ⟨name, keys⟩]) := by
  rw [New_of_valid env name keys s hv]
  have ht := (userInsert_trace env ⟨name, keys⟩ s).1
  constructor
  · intro hins
    have hok := userInsert_ok env ⟨name, keys⟩ s hins
    rcases hi : userInsert env ⟨name, keys⟩ s with ⟨_ | e, s1⟩
    · rw [hi] at ht hok
      simp only at ht hok
      simp only [keyBulkAdd, gatewayCall]
      refine ⟨hok.2, ?_, by simp [ht], ?_⟩
      · rw [hok.2]
        exact lookupDoc_append_of_none User.Name name s.users ⟨name, keys⟩ hok.1 rfl
      · cases env.failGateway (GatewayCall.bulkAdd keys name) <;> rfl
    · rw [hi] at hins
      cases hins
  · intro e he
    have hf := userInsert_failed env ⟨name, keys⟩ s e he
    rcases hi : userInsert env ⟨name, keys⟩ s with ⟨_ | e1, s1⟩
    · rw [hi] at he
      cases he
    · rw [hi] at ht hf he
      simp only [Option.some.injEq] at he
      subst he
      exact ⟨rfl, hf, ht⟩

theorem New_insert_then_gateway_witness :
    ((userInsert Env.ok ⟨"x", ["k"]⟩ ⟨[⟨"x", []⟩], [], []⟩).1 = none →
      (New Env.ok "x" ["k"] ⟨[⟨"x", []⟩], [], []⟩).2.users = [⟨"x", []⟩] ++ [⟨"x", ["k"]⟩] ∧
      lookupDoc User.Name "x" (New Env.ok "x" ["k"] ⟨[⟨"x", []⟩], [], []⟩).2.users
        = some ⟨"x", ["k"]⟩ ∧
      (New Env.ok "x" ["k"] ⟨[⟨"x", []⟩], [], []⟩).2.trace =
        [] ++ [Call.userInsert ⟨"x", ["k"]⟩, Call.gateway (GatewayCall.bulkAdd ["k"] "x")] ∧
      (New Env.ok "x" ["k"] ⟨[⟨"x", []⟩], [], []⟩).1 =
        (⟨"x", ["k"]⟩, (Env.ok.failGateway (GatewayCall.bulkAdd ["k"] "x")).map Error.gateway)) ∧
    (∀ e, (userInsert Env.ok ⟨"x", ["k"]⟩ ⟨[⟨"x", []⟩], [], []⟩).1 = some e →
      (New Env.ok "x" ["k"] ⟨[⟨"x", []⟩], [], []⟩).1 = (⟨"x", ["k"]⟩, some (Error.store e)) ∧
      (New Env.ok "x" ["k"] ⟨[⟨"x", []⟩], [], []⟩).2.users = [⟨"x", []⟩] ∧
      (New Env.ok "x" ["k"] ⟨[⟨"x", []⟩], [], []⟩).2.trace
        = [] ++ [Call.userInsert ⟨"x", ["k"]⟩]) :=
  New_insert_then_gateway Env.ok "x" ["k"] ⟨[⟨"x", []⟩], [], []⟩ (by decide)

/-- C10: a non-empty name made only of ASCII letters, digits, `.` and `@` is
accepted: `isValid` returns `(true, nil)`, and `New` goes on to the insert (it is
the first call that `New` adds to the trace) and does not return the validation
error. -/
theorem isValid_accepts_grammar (env : Env) (name : String) (keys : List String) (s : State)
    (hne : name.data ≠ [])
    (hall : ∀ c ∈ name.data, inRanges c grammarRanges = true) :
    (User.mk name keys).isValid = (true, none) ∧
    (New env name keys s).1.2 ≠ some Error.validation ∧
    ∃ rest, (New env name keys s).2.trace = s.trace ++ Call.userInsert ⟨name, keys⟩ :: rest := by
  have hv : (User.mk name keys).isValid = (true, none) :=
    (isValid_iff _).2 ⟨hne, fun c hc => grammar_subset_name c (hall c hc)⟩
  refine ⟨hv, ?_, ?_⟩
  · rw [New_of_valid env name keys s hv]
    rcases userInsert env ⟨name, keys⟩ s with ⟨_ | e, s1⟩
    · simp only [keyBulkAdd, gatewayCall]
      cases env.failGateway (GatewayCall.bulkAdd keys name) <;> simp
    · simp
  · rw [New_of_valid env name keys s hv]
    have ht := (userInsert_trace env ⟨name, keys⟩ s).1
    rcases hi : userInsert env ⟨name, keys⟩ s with ⟨_ | e, s1⟩
    · rw [hi] at ht
      simp only at ht
      exact ⟨[Call.gateway (GatewayCall.bulkAdd keys name)], by simp [keyBulkAdd, gatewayCall, ht]⟩
    · rw [hi] at ht
      exact ⟨[], ht⟩

theorem isValid_accepts_grammar_witness :
    (User.mk "Bob.9@x" []).isValid = (true, none) ∧
    (New Env.ok "Bob.9@x" [] ⟨[], [], []⟩).1.2 ≠ some Error.validation ∧
    ∃ rest, (New Env.ok "Bob.9@x" [] ⟨[], [], []⟩).2.trace
      = [] ++ Call.userInsert ⟨"Bob.9@x", []⟩ :: rest :=
  isValid_accepts_grammar Env.ok "Bob.9@x" [] ⟨[], [], []⟩ (by decide) (by decide)


/-! ## `AddKey` and the unknown identity -/

theorem userFindOne_ok (env : Env) (name : String) (s : State) (u : User)
    (h : userFindOne env name s = .ok u) :
    env.failUserFind name = none ∧ lookupDoc User.Name name s.users = some u ∧ u.Name = name := by
  unfold userFindOne at h
  cases h1 : env.failUserFind name with
  | some msg => simp [h1] at h
  | none =>
    cases h2 : lookupDoc User.Name name s.users with
    | none => simp [h1, h2] at h
    | some v =>
      simp only [h1, h2, Except.ok.injEq] at h
      subst h
      exact ⟨rfl, rfl, (lookupDoc_key User.Name name s.users v h2).1⟩

theorem userFindOne_unknown (env : Env) (name : String) (s : State)
    (h : lookupDoc User.Name name s.users = none) :
    userFindOne env name s =
      .error (match env.failUserFind name with
        | some msg => StoreError.fault msg
        | none => StoreError.notFound) := by
  unfold userFindOne
  cases env.failUserFind name <;> simp [h]

/-- C5: for a name without an identity record, `AddKey` fails with the
`User "name" not found` error and `Remove` fails with `Could not remove user:`
wrapping the error of the lookup, which is "not found" whenever the store answers
the lookup; both leave the state as it was, trace included: no write reaches the
store and the gateway is not called. -/
theorem unknown_identity (env : Env) (name k : String) (s : State)
    (h : lookupDoc User.Name name s.users = none) :
    AddKey env name k s = (some (Error.userNotFound name), s) ∧
    (∃ e, userFindOne env name s = .error e ∧
      Remove env name s = (some (Error.couldNotRemove e), s)) ∧
    (env.failUserFind name = none →
      Remove env name s = (some (Error.couldNotRemove StoreError.notFound), s)) := by
  have hf := userFindOne_unknown env name s h
  refine ⟨?_, ⟨_, hf, ?_⟩, ?_⟩
  · unfold AddKey
    rw [hf]
  · unfold Remove
    rw [hf]
  · intro h0
    unfold Remove
    rw [hf, h0]

theorem unknown_identity_witness :
    AddKey Env.ok "ghost" "k" ⟨[⟨"x", []⟩], [⟨"A", ["x"]⟩], []⟩
      = (some (Error.userNotFound "ghost"), ⟨[⟨"x", []⟩], [⟨"A", ["x"]⟩], []⟩) ∧
    (∃ e, userFindOne Env.ok "ghost" ⟨[⟨"x", []⟩], [⟨"A", ["x"]⟩], []⟩ = .error e ∧
      Remove Env.ok "ghost" ⟨[⟨"x", []⟩], [⟨"A", ["x"]⟩], []⟩
        = (some (Error.couldNotRemove e), ⟨[⟨"x", []⟩], [⟨"A", ["x"]⟩], []⟩)) ∧
    (Env.ok.failUserFind "ghost" = none →
      Remove Env.ok "ghost" ⟨[⟨"x", []⟩], [⟨"A", ["x"]⟩], []⟩
        = (some (Error.couldNotRemove StoreError.notFound),
            ⟨[⟨"x", []⟩], [⟨"A", ["x"]⟩], []⟩)) :=
  unknown_identity Env.ok "ghost" "k" ⟨[⟨"x", []⟩], [⟨"A", ["x"]⟩], []⟩ (by decide)

/-- C9: for an existing identity `u` named `name` and any key `k`, `AddKey` sends
one update of the record with the same name and the keys of `u` followed by `k`.
When the update goes through, the store holds that record, the gateway is then
called once, with `add (k, name)`, and the result of `AddKey` is the answer of the
gateway, the stored keys staying as written when it fails. When the update fails,
its error is returned, the identity collection is unchanged and the gateway is
not called. -/
theorem AddKey_appends (env : Env) (name k : String) (s : State) (u : User)
    (hu : userFindOne env name s = .ok u) :
    (env.failUserUpdate name ⟨name, u.Keys ++ [k]⟩ = none →
      replaceDoc User.Name name ⟨name, u.Keys ++ [k]⟩ s.users = some (AddKey env name k s).2.users ∧
      lookupDoc User.Name name (AddKey env name k s).2.users = some ⟨name, u.Keys ++ [k]⟩ ∧
      (AddKey env name k s).2.trace =
        s.trace ++ [Call.userUpdateId name ⟨name, u.Keys ++ [k]⟩,
          Call.gateway (GatewayCall.add k name)] ∧
      (AddKey env name k s).1 = (env.failGateway (GatewayCall.add k name)).map Error.gateway) ∧
    (∀ msg, env.failUserUpdate name ⟨name, u.Keys ++ [k]⟩ = some msg →
      (AddKey env name k s).1 = some (Error.store (StoreError.fault msg)) ∧
      (AddKey env name k s).2.users = s.users ∧
      (AddKey env name k s).2.trace = s.trace ++ [Call.userUpdateId name ⟨name, u.Keys ++ [k]⟩]) ∧
    (AddKey env name k s).2.repos = s.repos := by
  obtain ⟨-, hl, hn⟩ := userFindOne_ok env name s u hu
  obtain ⟨us, hus⟩ := replaceDoc_of_lookup User.Name name ⟨name, u.Keys ++ [k]⟩ s.users u hl
  have hl2 := lookupDoc_replaceDoc User.Name name ⟨name, u.Keys ++ [k]⟩ s.users us hus rfl name
  simp only [if_true] at hl2
  have hA : AddKey env name k s =
      match userUpdateId env name ⟨name, u.Keys ++ [k]⟩ s with
      | (some e, s1) => (some (Error.store e), s1)
      | (none, s1) => keyAdd env k name s1 := by
    unfold AddKey
    rw [hu]
    simp only [hn]
  rw [hA]
  unfold userUpdateId
  refine ⟨?_, ?_, ?_⟩
  · intro h0
    simp only [h0, hus, keyAdd, gatewayCall]
    refine ⟨trivial, hl2, by simp, ?_⟩
    cases env.failGateway (GatewayCall.add k name) <;> rfl
  · intro msg h0
    simp only [h0]
    exact ⟨trivial, trivial, trivial⟩
  · cases env.failUserUpdate name ⟨name, u.Keys ++ [k]⟩ <;> simp [hus, keyAdd, gatewayCall]

theorem AddKey_appends_witness :
    (Env.ok.failUserUpdate "x" ⟨"x", ["k1", "k2"] ++ ["k1"]⟩ = none →
      replaceDoc User.Name "x" ⟨"x", ["k1", "k2"] ++ ["k1"]⟩ [⟨"x", ["k1", "k2"]⟩]
        = some (AddKey Env.ok "x" "k1" ⟨[⟨"x", ["k1", "k2"]⟩], [], []⟩).2.users ∧
      lookupDoc User.Name "x" (AddKey Env.ok "x" "k1" ⟨[⟨"x", ["k1", "k2"]⟩], [], []⟩).2.users
        = some ⟨"x", ["k1", "k2"] ++ ["k1"]⟩ ∧
      (AddKey Env.ok "x" "k1" ⟨[⟨"x", ["k1", "k2"]⟩], [], []⟩).2.trace =
        [] ++ [Call.userUpdateId "x" ⟨"x", ["k1", "k2"] ++ ["k1"]⟩,
          Call.gateway (GatewayCall.add "k1" "x")] ∧
      (AddKey Env.ok "x" "k1" ⟨[⟨"x", ["k1", "k2"]⟩], [], []⟩).1
        = (Env.ok.failGateway (GatewayCall.add "k1" "x")).map Error.gateway) ∧
    (∀ msg, Env.ok.failUserUpdate "x" ⟨"x", ["k1", "k2"] ++ ["k1"]⟩ = some msg →
      (AddKey Env.ok "x" "k1" ⟨[⟨"x", ["k1", "k2"]⟩], [], []⟩).1
        = some (Error.store (StoreError.fault msg)) ∧
      (AddKey Env.ok "x" "k1" ⟨[⟨"x", ["k1", "k2"]⟩], [], []⟩).2.users = [⟨"x", ["k1", "k2"]⟩] ∧
      (AddKey Env.ok "x" "k1" ⟨[⟨"x", ["k1", "k2"]⟩], [], []⟩).2.trace
        = [] ++ [Call.userUpdateId "x" ⟨"x", ["k1", "k2"] ++ ["k1"]⟩]) ∧
    (AddKey Env.ok "x" "k1" ⟨[⟨"x", ["k1", "k2"]⟩], [], []⟩).2.repos = [] :=
  AddKey_appends Env.ok "x" "k1" ⟨[⟨"x", ["k1", "k2"]⟩], [], []⟩ ⟨"x", ["k1", "k2"]⟩ rfl


/-! ## The two loops of `handleAssociatedRepositories` -/

theorem guardLoop_eq_none (rs : List Repository) :
    guardLoop rs = none ↔ ∀ r ∈ rs, r.Users.length ≠ 1 := by
  induction rs with
  | nil => simp [guardLoop]
  | cons r rs ih =>
    unfold guardLoop
    by_cases h : r.Users.length = 1 <;> simp [h, ih]

theorem guardLoop_conflict (rs : List Repository) (h : ∃ r ∈ rs, r.Users.length = 1) :
    guardLoop rs = some Error.conflict := by
  induction rs with
  | nil => simp at h
  | cons r rs ih =>
    unfold guardLoop
    by_cases h1 : r.Users.length = 1
    · simp [h1]
    · simp only [h1, if_false]
      apply ih
      obtain ⟨r0, hr0, hl⟩ := h
      rcases List.mem_cons.1 hr0 with e | e
      · subst e
        exact absurd hl h1
      · exact ⟨r0, e, hl⟩

theorem guardLoop_cases (rs : List Repository) :
    guardLoop rs = none ∨ guardLoop rs = some Error.conflict := by
  by_cases h : ∃ r ∈ rs, r.Users.length = 1
  · exact Or.inr (guardLoop_conflict rs h)
  · left
    rw [guardLoop_eq_none]
    intro r hr hl
    exact h ⟨r, hr, hl⟩

theorem firstIndex_eq_none (name : String) (vs : List String) (k : Nat) :
    firstIndex name vs k = none ↔ name ∉ vs := by
  induction vs generalizing k with
  | nil => simp [firstIndex]
  | cons v vs ih =>
    unfold firstIndex
    by_cases h : v = name
    · simp [h]
    · have h1 : ¬ name = v := fun e => h e.symm
      simp [h, h1, ih]

theorem firstIndex_some (name : String) (vs : List String) (k i : Nat)
    (h : firstIndex name vs k = some i) :
    ∃ pre post, vs = pre ++ name :: post ∧ name ∉ pre ∧ i = k + pre.length := by
  induction vs generalizing k with
  | nil => simp [firstIndex] at h
  | cons v vs ih =>
    unfold firstIndex at h
    by_cases hv : v = name
    · simp only [hv, if_true, Option.some.injEq] at h
      exact ⟨[], vs, by simp [hv], by simp, by simp [h]⟩
    · simp only [hv, if_false] at h
      obtain ⟨pre, post, e, hn, hi⟩ := ih (k + 1) h
      refine ⟨v :: pre, post, by simp [e], ?_, by simp [hi]; omega⟩
      simp only [List.mem_cons, not_or]
      exact ⟨fun e1 => hv e1.symm, hn⟩

theorem swapRemove_append (pre post : List String) (x : String) :
    swapRemove (pre ++ x :: post) pre.length =
      pre ++ ((x :: post).getLast (List.cons_ne_nil x post) :: post).dropLast := by
  unfold swapRemove
  have hl : (pre ++ x :: post).getLast? = some ((x :: post).getLast (List.cons_ne_nil x post)) := by
    rw [List.getLast?_append_of_ne_nil pre (List.cons_ne_nil x post)]
    exact List.getLast?_eq_getLast _ _
  rw [hl]
  simp only
  have hs : (pre ++ x :: post).set pre.length ((x :: post).getLast (List.cons_ne_nil x post)) =
      pre ++ (x :: post).getLast (List.cons_ne_nil x post) :: post := by
    rw [List.set_append_right _ _ (Nat.le_refl _)]
    simp
  rw [hs, List.dropLast_eq_take]
  simp [List.take_append_eq_append_take]

theorem dropLast_getLast_perm (x : String) (post : List String) :
    (((x :: post).getLast (List.cons_ne_nil x post)) :: post).dropLast.Perm post := by
  cases post with
  | nil => simp
  | cons p ps =>
    have h1 : (x :: p :: ps).getLast (List.cons_ne_nil x (p :: ps)) =
        (p :: ps).getLast (List.cons_ne_nil p ps) := by simp
    rw [h1, List.dropLast_cons₂]
    have h2 := List.dropLast_append_getLast (List.cons_ne_nil p ps)
    have h3 : ((p :: ps).getLast (List.cons_ne_nil p ps) :: (p :: ps).dropLast).Perm
        ((p :: ps).dropLast ++ [(p :: ps).getLast (List.cons_ne_nil p ps)]) :=
      (List.perm_append_singleton _ _).symm
    rw [h2] at h3
    exact h3

theorem swapRemove_perm_erase (name : String) (users : List String) (i : Nat)
    (h : firstIndex name users 0 = some i) :
    (swapRemove users i).Perm (users.erase name) := by
  obtain ⟨pre, post, e, hn, hi⟩ := firstIndex_some name users 0 i h
  simp only [Nat.zero_add] at hi
  subst e hi
  rw [swapRemove_append, List.erase_append_right _ hn, List.erase_cons_head]
  exact List.Perm.append_left pre (dropLast_getLast_perm name post)

theorem swapRemove_length (name : String) (users : List String) (i : Nat)
    (h : firstIndex name users 0 = some i) :
    (swapRemove users i).length = users.length - 1 := by
  have hp := (swapRemove_perm_erase name users i h).length_eq
  have hm : name ∈ users := by
    by_contra hc
    rw [(firstIndex_eq_none name users 0).2 hc] at h
    cases h
  rw [hp, List.length_erase_of_mem hm]

theorem swapRemove_ne_nil (name : String) (users : List String) (i : Nat)
    (h : firstIndex name users 0 = some i) (h1 : users.length ≠ 1) :
    swapRemove users i ≠ [] := by
  have hl := swapRemove_length name users i h
  have hm : name ∈ users := by
    by_contra hc
    rw [(firstIndex_eq_none name users 0).2 hc] at h
    cases h
  have hpos : 0 < users.length := List.length_pos_of_mem hm
  intro e
  rw [e] at hl
  simp at hl
  omega


theorem replaceDoc_mem {α : Type} (key : α → String) (id : String) (new : α) (ds ds1 : List α)
    (h : replaceDoc key id new ds = some ds1) : ∀ d ∈ ds1, d = new ∨ d ∈ ds := by
  induction ds generalizing ds1 with
  | nil => simp [replaceDoc] at h
  | cons x xs ih =>
    unfold replaceDoc at h
    by_cases hx : key x = id
    · simp only [hx, if_true, Option.some.injEq] at h
      subst h
      intro d hd
      rcases List.mem_cons.1 hd with e | e
      · exact Or.inl e
      · exact Or.inr (List.mem_cons_of_mem _ e)
    · simp only [hx, if_false] at h
      cases hr : replaceDoc key id new xs with
      | none => simp [hr] at h
      | some ys =>
        simp only [hr, Option.some.injEq] at h
        subst h
        intro d hd
        rcases List.mem_cons.1 hd with e | e
        · exact Or.inr (by simp [e])
        · rcases ih ys hr d e with e1 | e1
          · exact Or.inl e1
          · exact Or.inr (List.mem_cons_of_mem _ e1)

theorem replaceDoc_eq_map {α : Type} (key : α → String) (id : String) (new : α) (ds ds1 : List α)
    (h : replaceDoc key id new ds = some ds1) (hnd : (ds.map key).Nodup) :
    ds1 = ds.map (fun e => if key e = id then new else e) := by
  induction ds generalizing ds1 with
  | nil => simp [replaceDoc] at h
  | cons x xs ih =>
    unfold replaceDoc at h
    rw [List.map_cons, List.nodup_cons] at hnd
    by_cases hx : key x = id
    · simp only [hx, if_true, Option.some.injEq] at h
      subst h
      have hid : xs.map (fun e => if key e = id then new else e) = xs := by
        conv => rhs; rw [← List.map_id xs]
        apply List.map_congr_left
        intro e he
        have : key e ≠ id := by
          intro hk
          exact hnd.1 (by rw [hx, ← hk]; exact List.mem_map_of_mem key he)
        simp [this]
      simp [hx, hid]
    · simp only [hx, if_false] at h
      cases hr : replaceDoc key id new xs with
      | none => simp [hr] at h
      | some ys =>
        simp only [hr, Option.some.injEq] at h
        subst h
        simp [hx, ih ys hr hnd.2]

theorem replaceDoc_exists {α : Type} (key : α → String) (id : String) (new : α) (ds : List α)
    (h : id ∈ ds.map key) : ∃ ds1, replaceDoc key id new ds = some ds1 := by
  cases hl : lookupDoc key id ds with
  | none =>
    obtain ⟨d, hd, hk⟩ := List.mem_map.1 h
    exact absurd hk ((lookupDoc_eq_none key id ds).1 hl d hd)
  | some d => exact replaceDoc_of_lookup key id new ds d hl

theorem replaceDoc_map_key {α : Type} (key : α → String) (id : String) (new : α) (ds ds1 : List α)
    (h : replaceDoc key id new ds = some ds1) (hn : key new = id) :
    ds1.map key = ds.map key := by
  induction ds generalizing ds1 with
  | nil => simp [replaceDoc] at h
  | cons x xs ih =>
    unfold replaceDoc at h
    by_cases hx : key x = id
    · simp only [hx, if_true, Option.some.injEq] at h
      subst h
      simp [hn, hx]
    · simp only [hx, if_false] at h
      cases hr : replaceDoc key id new xs with
      | none => simp [hr] at h
      | some ys =>
        simp only [hr, Option.some.injEq] at h
        subst h
        simp [ih ys hr]

/-- What one `Update` of a repository leaves behind, whatever its outcome. -/
theorem repoUpdate_frame (env : Env) (r : Repository) (s : State) :
    (repoUpdate env r.Name r s).2.users = s.users ∧
    (repoUpdate env r.Name r s).2.trace = s.trace ++ [Call.repoUpdate r.Name r] ∧
    (repoUpdate env r.Name r s).2.repos.map Repository.Name = s.repos.map Repository.Name ∧
    (∀ d ∈ (repoUpdate env r.Name r s).2.repos, d = r ∨ d ∈ s.repos) := by
  unfold repoUpdate
  cases h1 : env.failRepoUpdate r.Name r with
  | some msg =>
    simp only [true_and]
    exact fun d hd => Or.inr hd
  | none =>
    cases h2 : replaceDoc Repository.Name r.Name r s.repos with
    | none =>
      simp only [true_and]
      exact fun d hd => Or.inr hd
    | some rs =>
      simp only [true_and]
      exact ⟨replaceDoc_map_key Repository.Name r.Name r s.repos rs h2 rfl,
        replaceDoc_mem Repository.Name r.Name r s.repos rs h2⟩

theorem repoUpdate_ok (env : Env) (r : Repository) (s : State)
    (hw : env.failRepoUpdate r.Name r = none)
    (hm : r.Name ∈ s.repos.map Repository.Name) :
    ∃ rs, replaceDoc Repository.Name r.Name r s.repos = some rs ∧
      repoUpdate env r.Name r s =
        (none, ⟨s.users, rs, s.trace ++ [Call.repoUpdate r.Name r]⟩) := by
  obtain ⟨rs, hrs⟩ := replaceDoc_exists Repository.Name r.Name r s.repos hm
  refine ⟨rs, hrs, ?_⟩
  unfold repoUpdate
  simp [hw, hrs]

/-- The writes of the second loop are updates of repositories; it leaves the
identities alone, keeps the names of the repositories, and every document it
writes has a user when no repository of the query has exactly one. -/
theorem revokeLoop_frame (env : Env) (name : String) (rs : List Repository) (s : State) :
    (revokeLoop env name rs s).2.users = s.users ∧
    (revokeLoop env name rs s).2.repos.map Repository.Name = s.repos.map Repository.Name ∧
    (∃ ws, (revokeLoop env name rs s).2.trace = s.trace ++ ws ∧
      ∀ c ∈ ws, ∃ id r, c = Call.repoUpdate id r) ∧
    ((∀ r ∈ rs, r.Users.length ≠ 1) → s.everyRepoHasUser →
      (revokeLoop env name rs s).2.everyRepoHasUser) := by
  induction rs generalizing s with
  | nil =>
    simp only [revokeLoop]
    exact ⟨trivial, trivial, ⟨[], by simp, by simp⟩, fun _ h => h⟩
  | cons r rs ih =>
    unfold revokeLoop
    cases hi : firstIndex name r.Users 0 with
    | none =>
      simp only
      obtain ⟨h1, h2, h3, h4⟩ := ih s
      exact ⟨h1, h2, h3, fun hg hs => h4 (fun r0 hr0 => hg r0 (List.mem_cons_of_mem _ hr0)) hs⟩
    | some i =>
      simp only
      have hf := repoUpdate_frame env { r with Users := swapRemove r.Users i } s
      simp only at hf
      rcases hu : repoUpdate env r.Name { r with Users := swapRemove r.Users i } s with ⟨_ | e, s1⟩
      · rw [hu] at hf
        simp only at hf ⊢
        obtain ⟨h1, h2, ⟨ws, h3, h3a⟩, h4⟩ := ih s1
        refine ⟨h1.trans hf.1, h2.trans hf.2.2.1, ?_, ?_⟩
        · refine ⟨Call.repoUpdate r.Name { r with Users := swapRemove r.Users i } :: ws, ?_, ?_⟩
          · rw [h3, hf.2.1]
            simp
          · intro c hc
            rcases List.mem_cons.1 hc with e | e
            · exact ⟨_, _, e⟩
            · exact h3a c e
        · intro hg hs
          apply h4 (fun r0 hr0 => hg r0 (List.mem_cons_of_mem _ hr0))
          intro d hd
          rcases hf.2.2.2 d hd with e | e
          · subst e
            exact swapRemove_ne_nil name r.Users i hi (hg r (List.mem_cons_self _ _))
          · exact hs d e
      · rw [hu] at hf
        simp only at hf ⊢
        refine ⟨hf.1, hf.2.2.1, ⟨[_], hf.2.1, ?_⟩, ?_⟩
        · intro c hc
          exact ⟨_, _, List.mem_singleton.1 hc⟩
        · intro hg hs d hd
          rcases hf.2.2.2 d hd with e | e
          · subst e
            exact swapRemove_ne_nil name r.Users i hi (hg r (List.mem_cons_self _ _))
          · exact hs d e

/-- The second loop succeeds when no update fails: each repository of the query is
still in the store, under its name, when its turn comes. -/
theorem revokeLoop_ok (env : Env) (name : String) (rs : List Repository) (s : State)
    (hw : ∀ id r, env.failRepoUpdate id r = none)
    (hm : ∀ r ∈ rs, r.Name ∈ s.repos.map Repository.Name) :
    (revokeLoop env name rs s).1 = none := by
  induction rs generalizing s with
  | nil => rfl
  | cons r rs ih =>
    unfold revokeLoop
    cases hi : firstIndex name r.Users 0 with
    | none =>
      simp only
      exact ih s (fun r0 hr0 => hm r0 (List.mem_cons_of_mem _ hr0))
    | some i =>
      simp only
      obtain ⟨cur, hcur, hu⟩ := repoUpdate_ok env { r with Users := swapRemove r.Users i } s
        (hw _ _) (hm r (List.mem_cons_self _ _))
      simp only at hu
      rw [hu]
      simp only
      apply ih
      intro r0 hr0
      simp only
      rw [replaceDoc_map_key Repository.Name r.Name _ s.repos cur hcur rfl]
      exact hm r0 (List.mem_cons_of_mem _ hr0)


theorem revoke_name (name : String) (r : Repository) : (revoke name r).Name = r.Name := by
  unfold revoke
  cases firstIndex name r.Users 0 <;> rfl

theorem revoke_of_not_mem (name : String) (r : Repository) (h : name ∉ r.Users) :
    revoke name r = r := by
  unfold revoke
  rw [(firstIndex_eq_none name r.Users 0).2 h]

theorem mem_of_nodup_key {α : Type} (key : α → String) (ds : List α) (hnd : (ds.map key).Nodup)
    (a b : α) (ha : a ∈ ds) (hb : b ∈ ds) (hk : key a = key b) : a = b :=
  List.inj_on_of_nodup_map hnd ha hb hk

/-- The second loop in closed form, when no update fails and the store holds one
document per name: each repository of the query is replaced by its revoked
version, in place, and one update per repository that contains the name is sent,
in the order of the query. -/
theorem revokeLoop_eq (env : Env) (name : String) (rs : List Repository) (s : State)
    (hw : ∀ id r, env.failRepoUpdate id r = none)
    (hnd : (s.repos.map Repository.Name).Nodup)
    (hsub : ∀ r ∈ rs, r ∈ s.repos)
    (hrs : (rs.map Repository.Name).Nodup) :
    revokeLoop env name rs s =
      (none, ⟨s.users, s.repos.map (fun d => if d ∈ rs then revoke name d else d),
        s.trace ++ (rs.filter (fun r => decide (name ∈ r.Users))).map
          (fun r => Call.repoUpdate r.Name (revoke name r))⟩) := by
  induction rs generalizing s with
  | nil =>
    simp [revokeLoop]
  | cons r rs ih =>
    rw [List.map_cons, List.nodup_cons] at hrs
    have hr : r ∈ s.repos := hsub r (List.mem_cons_self _ _)
    unfold revokeLoop
    cases hi : firstIndex name r.Users 0 with
    | none =>
      simp only
      have hnm : name ∉ r.Users := (firstIndex_eq_none name r.Users 0).1 hi
      rw [ih s hnd (fun r0 hr0 => hsub r0 (List.mem_cons_of_mem _ hr0)) hrs.2]
      have hmap : s.repos.map (fun d => if d ∈ rs then revoke name d else d) =
          s.repos.map (fun d => if d ∈ r :: rs then revoke name d else d) := by
        apply List.map_congr_left
        intro d _
        by_cases hdr : d = r
        · subst hdr
          simp [revoke_of_not_mem name d hnm]
        · simp [hdr]
      rw [hmap, List.filter_cons_of_neg (by simpa using hnm)]
    | some i =>
      simp only
      have hrev : revoke name r = { r with Users := swapRemove r.Users i } := by
        unfold revoke
        rw [hi]
      have hnm : name ∈ r.Users := by
        by_contra hc
        rw [(firstIndex_eq_none name r.Users 0).2 hc] at hi
        cases hi
      obtain ⟨cur, hcur, hu⟩ := repoUpdate_ok env { r with Users := swapRemove r.Users i } s
        (hw _ _) (List.mem_map.2 ⟨r, hr, rfl⟩)
      simp only at hu hcur
      rw [hu]
      simp only
      have hcur2 := replaceDoc_eq_map Repository.Name r.Name _ s.repos cur hcur hnd
      have hkeys : cur.map Repository.Name = s.repos.map Repository.Name :=
        replaceDoc_map_key Repository.Name r.Name _ s.repos cur hcur rfl
      have hsub1 : ∀ r0 ∈ rs, r0 ∈ cur := by
        intro r0 hr0
        have h0 : r0 ∈ s.repos := hsub r0 (List.mem_cons_of_mem _ hr0)
        have hne : ¬ r0.Name = r.Name := by
          intro e
          exact hrs.1 (by rw [← e]; exact List.mem_map_of_mem Repository.Name hr0)
        rw [hcur2]
        refine List.mem_map.2 ⟨r0, h0, ?_⟩
        simp [hne]
      rw [ih ⟨s.users, cur, s.trace ++ [Call.repoUpdate r.Name { r with Users := swapRemove r.Users i }]⟩
        (by simpa [hkeys] using hnd) hsub1 hrs.2]
      simp only
      have hmap : cur.map (fun d => if d ∈ rs then revoke name d else d) =
          s.repos.map (fun d => if d ∈ r :: rs then revoke name d else d) := by
        rw [hcur2, List.map_map]
        apply List.map_congr_left
        intro d hd
        simp only [Function.comp]
        by_cases hdn : d.Name = r.Name
        · have hdr : d = r := mem_of_nodup_key Repository.Name s.repos hnd d r hd hr hdn
          subst hdr
          have hnot : ¬ ({ d with Users := swapRemove d.Users i } : Repository) ∈ rs := by
            intro hin
            exact hrs.1 (List.mem_map.2 ⟨_, hin, rfl⟩)
          simp [hnot, hrev]
        · have hdr : d ≠ r := fun e => hdn (by rw [e])
          simp [hdn, hdr]
      rw [hmap, List.filter_cons_of_pos (by simpa using hnm), List.map_cons, hrev]
      simp

theorem repoFindAll_ok (env : Env) (name : String) (s : State) (hq : env.failRepoFind name = none) :
    repoFindAll env name s = .ok (s.repos.filter (fun r => decide (name ∈ r.Users))) := by
  unfold repoFindAll
  rw [hq]

theorem repoFindAll_mem (env : Env) (name : String) (s : State) (rs : List Repository)
    (h : repoFindAll env name s = .ok rs) :
    rs = s.repos.filter (fun r => decide (name ∈ r.Users)) := by
  unfold repoFindAll at h
  cases hq : env.failRepoFind name with
  | some msg => simp [hq] at h
  | none =>
    simp only [hq, Except.ok.injEq] at h
    exact h.symm

/-- The method `handleAssociatedRepositories`, whatever its outcome: it leaves
the identities alone, keeps the names of the repositories, sends only updates of
repositories, and keeps a user in every repository. -/
theorem handle_frame (u : User) (env : Env) (s : State) :
    (u.handleAssociatedRepositories env s).2.users = s.users ∧
    (u.handleAssociatedRepositories env s).2.repos.map Repository.Name
      = s.repos.map Repository.Name ∧
    (∃ ws, (u.handleAssociatedRepositories env s).2.trace = s.trace ++ ws ∧
      ∀ c ∈ ws, ∃ id r, c = Call.repoUpdate id r) ∧
    (s.everyRepoHasUser → (u.handleAssociatedRepositories env s).2.everyRepoHasUser) := by
  unfold User.handleAssociatedRepositories
  cases hq : repoFindAll env u.Name s with
  | error e => exact ⟨rfl, rfl, ⟨[], by simp, by simp⟩, fun h => h⟩
  | ok repos =>
    simp only
    cases hg : guardLoop repos with
    | some e => exact ⟨rfl, rfl, ⟨[], by simp, by simp⟩, fun h => h⟩
    | none =>
      simp only
      obtain ⟨h1, h2, h3, h4⟩ := revokeLoop_frame env u.Name repos s
      exact ⟨h1, h2, h3, h4 ((guardLoop_eq_none repos).1 hg)⟩

/-- The method `handleAssociatedRepositories` stops at the guard, with the state
as it was, when a repository that contains the name has exactly one user. -/
theorem handle_conflict (u : User) (env : Env) (s : State)
    (hq : env.failRepoFind u.Name = none)
    (hsole : ∃ r ∈ s.repos, u.Name ∈ r.Users ∧ r.Users.length = 1) :
    u.handleAssociatedRepositories env s = (some Error.conflict, s) := by
  unfold User.handleAssociatedRepositories
  rw [repoFindAll_ok env u.Name s hq]
  simp only
  have hg : guardLoop (s.repos.filter (fun r => decide (u.Name ∈ r.Users))) = some Error.conflict := by
    apply guardLoop_conflict
    obtain ⟨r, hr, hm, hl⟩ := hsole
    exact ⟨r, List.mem_filter.2 ⟨hr, by simpa using hm⟩, hl⟩
  rw [hg]

/-- The method `handleAssociatedRepositories` succeeds when the query answers, no
repository that contains the name has exactly one user and no update fails. -/
theorem handle_ok (u : User) (env : Env) (s : State)
    (hq : env.failRepoFind u.Name = none)
    (hsole : ∀ r ∈ s.repos, u.Name ∈ r.Users → r.Users.length ≠ 1)
    (hw : ∀ id r, env.failRepoUpdate id r = none) :
    (u.handleAssociatedRepositories env s).1 = none := by
  unfold User.handleAssociatedRepositories
  rw [repoFindAll_ok env u.Name s hq]
  simp only
  have hg : guardLoop (s.repos.filter (fun r => decide (u.Name ∈ r.Users))) = none := by
    rw [guardLoop_eq_none]
    intro r hr
    have := List.mem_filter.1 hr
    exact hsole r this.1 (by simpa using this.2)
  rw [hg]
  simp only
  apply revokeLoop_ok env u.Name _ s hw
  intro r hr
  exact List.mem_map_of_mem Repository.Name (List.mem_filter.1 hr).1

/-- The method `handleAssociatedRepositories` in closed form, under the
conditions of `handle_ok` and with one document per repository name. -/
theorem handle_eq (u : User) (env : Env) (s : State)
    (hq : env.failRepoFind u.Name = none)
    (hsole : ∀ r ∈ s.repos, u.Name ∈ r.Users → r.Users.length ≠ 1)
    (hw : ∀ id r, env.failRepoUpdate id r = none)
    (hnd : (s.repos.map Repository.Name).Nodup) :
    u.handleAssociatedRepositories env s =
      (none, ⟨s.users, s.repos.map (revoke u.Name),
        s.trace ++ (s.repos.filter (fun r => decide (u.Name ∈ r.Users))).map
          (fun r => Call.repoUpdate r.Name (revoke u.Name r))⟩) := by
  unfold User.handleAssociatedRepositories
  rw [repoFindAll_ok env u.Name s hq]
  simp only
  have hg : guardLoop (s.repos.filter (fun r => decide (u.Name ∈ r.Users))) = none := by
    rw [guardLoop_eq_none]
    intro r hr
    have := List.mem_filter.1 hr
    exact hsole r this.1 (by simpa using this.2)
  rw [hg]
  simp only
  rw [revokeLoop_eq env u.Name _ s hw hnd (fun r hr => (List.mem_filter.1 hr).1)
    ((List.filter_sublist _).map Repository.Name |>.nodup hnd)]
  have hmap : s.repos.map (fun d =>
      if d ∈ s.repos.filter (fun r => decide (u.Name ∈ r.Users)) then revoke u.Name d else d) =
      s.repos.map (revoke u.Name) := by
    apply List.map_congr_left
    intro d hd
    by_cases hm : u.Name ∈ d.Users
    · have : d ∈ s.repos.filter (fun r => decide (u.Name ∈ r.Users)) :=
        List.mem_filter.2 ⟨hd, by simpa using hm⟩
      simp [this]
    · have : ¬ d ∈ s.repos.filter (fun r => decide (u.Name ∈ r.Users)) := by
        intro h
        exact hm (by simpa using (List.mem_filter.1 h).2)
      simp [this, revoke_of_not_mem u.Name d hm]
  rw [hmap, List.filter_filter]
  simp


/-! ## `Remove` -/

theorem userRemoveId_repos (env : Env) (id : String) (s : State) :
    (userRemoveId env id s).2.repos = s.repos := by
  unfold userRemoveId
  cases env.failUserRemove id <;> cases deleteDoc User.Name id s.users <;> rfl

theorem userRemoveId_ok (env : Env) (id : String) (s : State) (u : User)
    (hd : env.failUserRemove id = none) (hl : lookupDoc User.Name id s.users = some u) :
    userRemoveId env id s =
      (none, ⟨s.users.erase u, s.repos, s.trace ++ [Call.userRemoveId id]⟩) := by
  unfold userRemoveId
  rw [hd, deleteDoc_of_lookup User.Name id s.users u hl]

theorem gatewayCall_repos (env : Env) (c : GatewayCall) (s : State) :
    (gatewayCall env c s).2.repos = s.repos := rfl

/-- Whatever the outcome of `Remove`, every repository keeps a user. -/
theorem Remove_everyRepoHasUser (env : Env) (name : String) (s : State)
    (h : s.everyRepoHasUser) : (Remove env name s).2.everyRepoHasUser := by
  unfold Remove
  cases hu : userFindOne env name s with
  | error e => exact h
  | ok u =>
    simp only
    have hf := (handle_frame u env s).2.2.2 h
    rcases hh : u.handleAssociatedRepositories env s with ⟨_ | e, s1⟩
    · rw [hh] at hf
      simp only at hf ⊢
      have hr := userRemoveId_repos env u.Name s1
      rcases hd : userRemoveId env u.Name s1 with ⟨_ | e, s2⟩
      · rw [hd] at hr
        simp only at hr ⊢
        unfold State.everyRepoHasUser
        rw [keyBulkRemove, gatewayCall_repos, hr]
        exact hf
      · rw [hd] at hr
        simp only at hr ⊢
        unfold State.everyRepoHasUser
        rw [hr]
        exact hf
    · rw [hh] at hf
      exact hf

/-- When the lookup finds the identity, the query answers and a repository that
contains the name has exactly one user, `Remove` returns the conflict error and
the state is the one it started from. -/
theorem Remove_conflict (env : Env) (name : String) (s : State) (u : User)
    (hu : userFindOne env name s = .ok u)
    (hq : env.failRepoFind name = none)
    (hsole : ∃ r ∈ s.repos, name ∈ r.Users ∧ r.Users.length = 1) :
    Remove env name s = (some Error.conflict, s) := by
  have hn := (userFindOne_ok env name s u hu).2.2
  unfold Remove
  rw [hu]
  simp only
  rw [handle_conflict u env s (by rw [hn]; exact hq) (by rw [hn]; exact hsole)]

/-- C1: for an existing identity `name` (the lookup finds `u`), when the query of
the repositories answers and at least one repository whose users contain `name`
has exactly one user, `Remove` fails with the conflict error and the state is
unchanged: every repository has the users it had, also those with two users or
more that contain `name`; the identity record is still there with its keys; the
trace is the same, so no write reached the store and the gateway was not
called. -/
theorem Remove_all_or_nothing (env : Env) (name : String) (s : State) (u : User)
    (hu : userFindOne env name s = .ok u)
    (hq : env.failRepoFind name = none)
    (hsole : ∃ r ∈ s.repos, name ∈ r.Users ∧ r.Users.length = 1) :
    Remove env name s = (some Error.conflict, s) ∧
    (Remove env name s).2.repos = s.repos ∧
    lookupDoc User.Name name (Remove env name s).2.users = some u ∧
    (Remove env name s).2.trace = s.trace := by
  have h := Remove_conflict env name s u hu hq hsole
  rw [h]
  exact ⟨rfl, rfl, (userFindOne_ok env name s u hu).2.1, rfl⟩

theorem Remove_all_or_nothing_witness :
    Remove Env.ok "x" ⟨[⟨"x", ["k"]⟩, ⟨"y", []⟩], [⟨"A", ["x", "y"]⟩, ⟨"B", ["x"]⟩], []⟩
      = (some Error.conflict,
          ⟨[⟨"x", ["k"]⟩, ⟨"y", []⟩], [⟨"A", ["x", "y"]⟩, ⟨"B", ["x"]⟩], []⟩) ∧
    (Remove Env.ok "x" ⟨[⟨"x", ["k"]⟩, ⟨"y", []⟩], [⟨"A", ["x", "y"]⟩, ⟨"B", ["x"]⟩], []⟩).2.repos
      = [⟨"A", ["x", "y"]⟩, ⟨"B", ["x"]⟩] ∧
    lookupDoc User.Name "x"
      (Remove Env.ok "x" ⟨[⟨"x", ["k"]⟩, ⟨"y", []⟩], [⟨"A", ["x", "y"]⟩, ⟨"B", ["x"]⟩], []⟩).2.users
      = some ⟨"x", ["k"]⟩ ∧
    (Remove Env.ok "x" ⟨[⟨"x", ["k"]⟩, ⟨"y", []⟩], [⟨"A", ["x", "y"]⟩, ⟨"B", ["x"]⟩], []⟩).2.trace
      = [] :=
  Remove_all_or_nothing Env.ok "x"
    ⟨[⟨"x", ["k"]⟩, ⟨"y", []⟩], [⟨"A", ["x", "y"]⟩, ⟨"B", ["x"]⟩], []⟩ ⟨"x", ["k"]⟩
    rfl rfl ⟨⟨"B", ["x"]⟩, by decide, by decide, by decide⟩

/-- C2: from a state in which every repository has at least one user, after any
finite sequence of `Remove` calls that each succeed (each in an environment of
its own), every repository still has at least one user. -/
theorem removeEach_everyRepoHasUser (calls : List (Env × String)) (s s1 : State)
    (hinv : s.everyRepoHasUser) (hrun : removeEach calls s = some s1) :
    s1.everyRepoHasUser := by
  induction calls generalizing s with
  | nil =>
    simp only [removeEach, Option.some.injEq] at hrun
    rw [← hrun]
    exact hinv
  | cons c rest ih =>
    obtain ⟨env, name⟩ := c
    unfold removeEach at hrun
    have hstep := Remove_everyRepoHasUser env name s hinv
    rcases hr : Remove env name s with ⟨_ | e, s2⟩
    · rw [hr] at hrun hstep
      exact ih s2 hstep hrun
    · rw [hr] at hrun
      cases hrun

theorem removeEach_everyRepoHasUser_witness :
    State.everyRepoHasUser
      ⟨[⟨"x", []⟩, ⟨"y", []⟩], [⟨"A", ["x", "y", "z"]⟩, ⟨"B", ["y", "z"]⟩], []⟩ ∧
    removeEach [(Env.ok, "x"), (Env.ok, "y")]
      ⟨[⟨"x", []⟩, ⟨"y", []⟩], [⟨"A", ["x", "y", "z"]⟩, ⟨"B", ["y", "z"]⟩], []⟩ =
      some ⟨[], [⟨"A", ["z"]⟩, ⟨"B", ["z"]⟩],
        [Call.repoUpdate "A" ⟨"A", ["z", "y"]⟩,
         Call.userRemoveId "x", Call.gateway (GatewayCall.bulkRemove [] "x"),
         Call.repoUpdate "A" ⟨"A", ["z"]⟩, Call.repoUpdate "B" ⟨"B", ["z"]⟩,
         Call.userRemoveId "y", Call.gateway (GatewayCall.bulkRemove [] "y")]⟩ ∧
    State.everyRepoHasUser
      ⟨[], [⟨"A", ["z"]⟩, ⟨"B", ["z"]⟩],
        [Call.repoUpdate "A" ⟨"A", ["z", "y"]⟩,
         Call.userRemoveId "x", Call.gateway (GatewayCall.bulkRemove [] "x"),
         Call.repoUpdate "A" ⟨"A", ["z"]⟩, Call.repoUpdate "B" ⟨"B", ["z"]⟩,
         Call.userRemoveId "y", Call.gateway (GatewayCall.bulkRemove [] "y")]⟩ :=
  ⟨by unfold State.everyRepoHasUser; decide, rfl,
    removeEach_everyRepoHasUser [(Env.ok, "x"), (Env.ok, "y")]
      ⟨[⟨"x", []⟩, ⟨"y", []⟩], [⟨"A", ["x", "y", "z"]⟩, ⟨"B", ["y", "z"]⟩], []⟩ _
      (by unfold State.everyRepoHasUser; decide) rfl⟩


/-- The function `Remove` when the lookup finds `u`, the revocation succeeds and
the deletion is not refused by the store. -/
theorem Remove_of_handle_ok (env : Env) (name : String) (s s1 : State) (u : User)
    (hu : userFindOne env name s = .ok u)
    (hh : u.handleAssociatedRepositories env s = (none, s1))
    (hd : env.failUserRemove name = none) :
    Remove env name s =
      ((env.failGateway (GatewayCall.bulkRemove u.Keys name)).map Error.gateway,
        ⟨s.users.erase u, s1.repos,
          s1.trace ++ [Call.userRemoveId name, Call.gateway (GatewayCall.bulkRemove u.Keys name)]⟩) := by
  obtain ⟨-, hl, hn⟩ := userFindOne_ok env name s u hu
  have hus : s1.users = s.users := by
    have := (handle_frame u env s).1
    rw [hh] at this
    exact this
  unfold Remove
  rw [hu]
  simp only
  rw [hh]
  simp only
  rw [hn, userRemoveId_ok env name s1 u hd (by rw [hus]; exact hl)]
  simp only [keyBulkRemove, gatewayCall, hus]
  cases env.failGateway (GatewayCall.bulkRemove u.Keys name) <;> simp

/-- C6: for an existing identity `u` named `name` (the lookup finds it), when the
query of the repositories answers, no repository that contains `name` has
exactly one user and no write is refused by the store, `Remove` deletes the record
of `u` from the identity collection (with one record per name, no record named
`name` is left) and then calls the gateway exactly once, with the bulk-remove of
the stored keys of `u`, in stored order, tagged `name`: the trace grows by updates
of repositories, the deletion and that call, in this order. The result of `Remove`
is the answer of that call, and the record is deleted whatever this answer is. -/
theorem Remove_success (env : Env) (name : String) (s : State) (u : User)
    (hu : userFindOne env name s = .ok u)
    (hq : env.failRepoFind name = none)
    (hsole : ∀ r ∈ s.repos, name ∈ r.Users → r.Users.length ≠ 1)
    (hw : ∀ id r, env.failRepoUpdate id r = none)
    (hd : env.failUserRemove name = none) :
    (Remove env name s).2.users = s.users.erase u ∧
    ((s.users.map User.Name).Nodup →
      lookupDoc User.Name name (Remove env name s).2.users = none) ∧
    (∃ ws, (∀ c ∈ ws, ∃ id r, c = Call.repoUpdate id r) ∧
      (Remove env name s).2.trace =
        s.trace ++ ws ++
          [Call.userRemoveId name, Call.gateway (GatewayCall.bulkRemove u.Keys name)]) ∧
    (Remove env name s).1 =
      (env.failGateway (GatewayCall.bulkRemove u.Keys name)).map Error.gateway := by
  obtain ⟨-, hl, hn⟩ := userFindOne_ok env name s u hu
  have hok := handle_ok u env s (by rw [hn]; exact hq) (by rw [hn]; exact hsole) hw
  obtain ⟨-, -, ⟨ws, hws, hall⟩, -⟩ := handle_frame u env s
  rcases hh : u.handleAssociatedRepositories env s with ⟨e, s1⟩
  rw [hh] at hok hws
  simp only at hok hws
  subst hok
  rw [Remove_of_handle_ok env name s s1 u hu hh hd]
  refine ⟨rfl, ?_, ⟨ws, hall, by simp [hws]⟩, rfl⟩
  intro hnd
  exact lookupDoc_erase_self User.Name name s.users u hl hnd

theorem Remove_success_witness :
    (Remove Env.ok "x" ⟨[⟨"x", ["k1", "k2"]⟩, ⟨"y", []⟩], [⟨"A", ["x", "y"]⟩], []⟩).2.users
      = [⟨"x", ["k1", "k2"]⟩, ⟨"y", []⟩].erase ⟨"x", ["k1", "k2"]⟩ ∧
    ((([⟨"x", ["k1", "k2"]⟩, ⟨"y", []⟩] : List User).map User.Name).Nodup →
      lookupDoc User.Name "x"
        (Remove Env.ok "x" ⟨[⟨"x", ["k1", "k2"]⟩, ⟨"y", []⟩], [⟨"A", ["x", "y"]⟩], []⟩).2.users
        = none) ∧
    (∃ ws, (∀ c ∈ ws, ∃ id r, c = Call.repoUpdate id r) ∧
      (Remove Env.ok "x" ⟨[⟨"x", ["k1", "k2"]⟩, ⟨"y", []⟩], [⟨"A", ["x", "y"]⟩], []⟩).2.trace =
        [] ++ ws ++
          [Call.userRemoveId "x", Call.gateway (GatewayCall.bulkRemove ["k1", "k2"] "x")]) ∧
    (Remove Env.ok "x" ⟨[⟨"x", ["k1", "k2"]⟩, ⟨"y", []⟩], [⟨"A", ["x", "y"]⟩], []⟩).1 =
      (Env.ok.failGateway (GatewayCall.bulkRemove ["k1", "k2"] "x")).map Error.gateway :=
  Remove_success Env.ok "x" ⟨[⟨"x", ["k1", "k2"]⟩, ⟨"y", []⟩], [⟨"A", ["x", "y"]⟩], []⟩
    ⟨"x", ["k1", "k2"]⟩ rfl rfl (by decide) (fun _ _ => rfl) rfl


theorem lookupDoc_map_of_mem {α : Type} (key : α → String) (f : α → α) (ds : List α) (d : α)
    (hf : ∀ e, key (f e) = key e) (hnd : (ds.map key).Nodup) (hd : d ∈ ds) :
    lookupDoc key (key d) (ds.map f) = some (f d) := by
  induction ds with
  | nil => simp at hd
  | cons x xs ih =>
    rw [List.map_cons, List.nodup_cons] at hnd
    rw [List.map_cons]
    unfold lookupDoc
    rcases List.mem_cons.1 hd with e | e
    · subst e
      simp [hf]
    · have hne : ¬ key (f x) = key d := by
        rw [hf]
        intro hk
        exact hnd.1 (by rw [hk]; exact List.mem_map_of_mem key e)
      simp only [hne, if_false]
      exact ih hnd.2 e

theorem eq_singleton_of_nodup (l : List String) (y : String) (hnd : l.Nodup)
    (hm : ∀ z, z ∈ l ↔ z = y) : l = [y] := by
  cases l with
  | nil => exact absurd ((hm y).2 rfl) (List.not_mem_nil y)
  | cons a t =>
    have ha : a = y := (hm a).1 (List.mem_cons_self _ _)
    subst ha
    rw [List.nodup_cons] at hnd
    cases t with
    | nil => rfl
    | cons b t1 =>
      have hb : b = a := (hm b).1 (List.mem_cons_of_mem _ (List.mem_cons_self _ _))
      subst hb
      exact absurd (List.mem_cons_self _ _) hnd.1

/-- The users that `revoke` leaves, for a list without duplicates that contains
the name: the old users other than the name. -/
theorem revoke_users (x : String) (r : Repository) (hrn : r.Users.Nodup) (hx : x ∈ r.Users) :
    (revoke x r).Users.Nodup ∧ ∀ z, z ∈ (revoke x r).Users ↔ z ∈ r.Users ∧ z ≠ x := by
  unfold revoke
  cases hi : firstIndex x r.Users 0 with
  | none => exact absurd hx ((firstIndex_eq_none x r.Users 0).1 hi)
  | some i =>
    simp only
    have hp := swapRemove_perm_erase x r.Users i hi
    refine ⟨hp.nodup_iff.2 (hrn.erase x), ?_⟩
    intro z
    rw [hp.mem_iff, hrn.mem_erase_iff]
    exact And.comm

/-- C4: take an existing identity `x` (the lookup finds it), let the query of the
repositories answer, no repository that contains `x` have exactly one user and no
write be refused, in a store with one document per repository name. For every
repository `r` whose users have no duplicates and contain `x` (so that `r` has
another user as well), `Remove x` persists `r`: the update is in the trace and
the document stored under the name of `r` has as users exactly the old users
other than `x`, so `x` is not among them. When the old users were `{x, y}`, the
stored users are `[y]`, and a later `Remove y` of the existing identity `y`, in
any environment that answers the two queries, fails with the conflict error and
changes nothing. -/
theorem Remove_cascades (env : Env) (x : String) (s : State) (u : User)
    (hu : userFindOne env x s = .ok u)
    (hq : env.failRepoFind x = none)
    (hsole : ∀ r ∈ s.repos, x ∈ r.Users → r.Users.length ≠ 1)
    (hw : ∀ id r, env.failRepoUpdate id r = none)
    (hd : env.failUserRemove x = none)
    (hnd : (s.repos.map Repository.Name).Nodup)
    (r : Repository) (hr : r ∈ s.repos) (hrn : r.Users.Nodup) (hx : x ∈ r.Users) :
    ∃ r1, lookupDoc Repository.Name r.Name (Remove env x s).2.repos = some r1 ∧
      Call.repoUpdate r.Name r1 ∈ (Remove env x s).2.trace ∧
      (∀ z, z ∈ r1.Users ↔ z ∈ r.Users ∧ z ≠ x) ∧
      x ∉ r1.Users ∧
      ∀ y, (∀ z, z ∈ r.Users ↔ z = x ∨ z = y) →
        r1.Users = [y] ∧
        ∀ (env2 : Env) (uy : User), lookupDoc User.Name y s.users = some uy →
          env2.failUserFind y = none → env2.failRepoFind y = none →
          Remove env2 y (Remove env x s).2 = (some Error.conflict, (Remove env x s).2) := by
  obtain ⟨-, hl, hn⟩ := userFindOne_ok env x s u hu
  have hh := handle_eq u env s (by rw [hn]; exact hq) (by rw [hn]; exact hsole) hw hnd
  rw [hn] at hh
  have hR := Remove_of_handle_ok env x s _ u hu hh hd
  simp only at hR
  obtain ⟨hrnd, hmem⟩ := revoke_users x r hrn hx
  have hlook : lookupDoc Repository.Name r.Name (s.repos.map (revoke x)) = some (revoke x r) :=
    lookupDoc_map_of_mem Repository.Name (revoke x) s.repos r (revoke_name x) hnd hr
  refine ⟨revoke x r, ?_, ?_, hmem, ?_, ?_⟩
  · rw [hR]
    exact hlook
  · rw [hR]
    simp only [List.mem_append, List.mem_map, List.mem_filter]
    exact Or.inl (Or.inr ⟨r, ⟨hr, by simpa using hx⟩, rfl⟩)
  · intro h
    exact ((hmem x).1 h).2 rfl
  · intro y hxy
    have hyx : y ≠ x := by
      intro e
      subst e
      have : r.Users = [y] := eq_singleton_of_nodup r.Users y hrn (fun z => by simpa using hxy z)
      exact hsole r hr hx (by rw [this]; rfl)
    have hone : (revoke x r).Users = [y] := by
      apply eq_singleton_of_nodup _ y hrnd
      intro z
      rw [hmem z, hxy z]
      constructor
      · rintro ⟨h1 | h1, h2⟩
        · exact absurd h1 h2
        · exact h1
      · intro h1
        subst h1
        exact ⟨Or.inr rfl, hyx⟩
    refine ⟨hone, ?_⟩
    intro env2 uy hly hf2 hq2
    apply Remove_conflict env2 y _ uy
    · unfold userFindOne
      rw [hf2, hR]
      simp only
      rw [lookupDoc_erase_of_ne User.Name y s.users u (by rw [hn]; exact fun e => hyx e.symm), hly]
    · exact hq2
    · refine ⟨revoke x r, ?_, by rw [hone]; exact List.mem_singleton.2 rfl, by rw [hone]; rfl⟩
      rw [hR]
      exact List.mem_map_of_mem (revoke x) hr

theorem Remove_cascades_witness :
    ∃ r1, lookupDoc Repository.Name "A"
        (Remove Env.ok "x" ⟨[⟨"x", []⟩, ⟨"y", []⟩], [⟨"A", ["x", "y"]⟩], []⟩).2.repos = some r1 ∧
      Call.repoUpdate "A" r1 ∈
        (Remove Env.ok "x" ⟨[⟨"x", []⟩, ⟨"y", []⟩], [⟨"A", ["x", "y"]⟩], []⟩).2.trace ∧
      (∀ z, z ∈ r1.Users ↔ z ∈ ["x", "y"] ∧ z ≠ "x") ∧
      "x" ∉ r1.Users ∧
      ∀ y, (∀ z, z ∈ ["x", "y"] ↔ z = "x" ∨ z = y) →
        r1.Users = [y] ∧
        ∀ (env2 : Env) (uy : User),
          lookupDoc User.Name y [⟨"x", []⟩, ⟨"y", []⟩] = some uy →
          env2.failUserFind y = none → env2.failRepoFind y = none →
          Remove env2 y (Remove Env.ok "x" ⟨[⟨"x", []⟩, ⟨"y", []⟩], [⟨"A", ["x", "y"]⟩], []⟩).2 =
            (some Error.conflict,
              (Remove Env.ok "x" ⟨[⟨"x", []⟩, ⟨"y", []⟩], [⟨"A", ["x", "y"]⟩], []⟩).2) :=
  Remove_cascades Env.ok "x" ⟨[⟨"x", []⟩, ⟨"y", []⟩], [⟨"A", ["x", "y"]⟩], []⟩ ⟨"x", []⟩
    rfl rfl (by decide) (fun _ _ => rfl) rfl (by decide) ⟨"A", ["x", "y"]⟩ (by decide)
    (by decide) (by decide)


/-! ## The invariant on every outcome -/

theorem New_repos (env : Env) (name : String) (keys : List String) (s : State) :
    (New env name keys s).2.repos = s.repos := by
  by_cases hv : (User.mk name keys).isValid = (true, none)
  · rw [New_of_valid env name keys s hv]
    have ht := (userInsert_trace env ⟨name, keys⟩ s).2
    rcases hi : userInsert env ⟨name, keys⟩ s with ⟨_ | e, s1⟩
    · rw [hi] at ht
      exact ht
    · rw [hi] at ht
      exact ht
  · have hf := isValid_of_not _ hv
    unfold New
    simp only [hf]

theorem userUpdateId_repos (env : Env) (id : String) (u : User) (s : State) :
    (userUpdateId env id u s).2.repos = s.repos := by
  unfold userUpdateId
  cases env.failUserUpdate id u <;> cases replaceDoc User.Name id u s.users <;> rfl

theorem AddKey_repos (env : Env) (uName k : String) (s : State) :
    (AddKey env uName k s).2.repos = s.repos := by
  unfold AddKey
  cases hu : userFindOne env uName s with
  | error e => rfl
  | ok u =>
    simp only
    have hr := userUpdateId_repos env u.Name ⟨u.Name, u.Keys ++ [k]⟩ s
    rcases hi : userUpdateId env u.Name ⟨u.Name, u.Keys ++ [k]⟩ s with ⟨_ | e, s1⟩
    · rw [hi] at hr
      exact hr
    · rw [hi] at hr
      exact hr

/-- C16: from a state in which every repository has at least one user, after one
call of `New`, of `AddKey` or of `Remove`, in any environment and so whatever the
outcome of the call, every repository still has at least one user. -/
theorem everyRepoHasUser_preserved (env : Env) (name k : String) (keys : List String) (s : State)
    (hinv : s.everyRepoHasUser) :
    (New env name keys s).2.everyRepoHasUser ∧
    (AddKey env name k s).2.everyRepoHasUser ∧
    (Remove env name s).2.everyRepoHasUser := by
  refine ⟨?_, ?_, Remove_everyRepoHasUser env name s hinv⟩
  · unfold State.everyRepoHasUser
    rw [New_repos]
    exact hinv
  · unfold State.everyRepoHasUser
    rw [AddKey_repos]
    exact hinv

theorem everyRepoHasUser_preserved_witness :
    State.everyRepoHasUser ⟨[⟨"x", []⟩], [⟨"A", ["x", "y"]⟩, ⟨"B", ["x", "z"]⟩], []⟩ ∧
    (New (Env.repoUpdateFails "B" "down") "x" ["k"]
      ⟨[⟨"x", []⟩], [⟨"A", ["x", "y"]⟩, ⟨"B", ["x", "z"]⟩], []⟩).2.everyRepoHasUser ∧
    (AddKey (Env.repoUpdateFails "B" "down") "x" "k"
      ⟨[⟨"x", []⟩], [⟨"A", ["x", "y"]⟩, ⟨"B", ["x", "z"]⟩], []⟩).2.everyRepoHasUser ∧
    (Remove (Env.repoUpdateFails "B" "down") "x"
      ⟨[⟨"x", []⟩], [⟨"A", ["x", "y"]⟩, ⟨"B", ["x", "z"]⟩], []⟩).2.everyRepoHasUser :=
  ⟨by unfold State.everyRepoHasUser; decide,
    everyRepoHasUser_preserved (Env.repoUpdateFails "B" "down") "x" "k" ["k"]
      ⟨[⟨"x", []⟩], [⟨"A", ["x", "y"]⟩, ⟨"B", ["x", "z"]⟩], []⟩
      (by unfold State.everyRepoHasUser; decide)⟩

/-! ## The accepted language -/

theorem accepted_iff_name (c : Char) :
    inRanges c acceptedRanges = inRanges c nameRanges := by
  have h : inRanges c acceptedRanges = true ↔ inRanges c nameRanges = true := by
    simp [inRanges, nameRanges, acceptedRanges]
    omega
  cases h1 : inRanges c acceptedRanges <;> cases h2 : inRanges c nameRanges <;> simp_all

/-- C15: `isValid` accepts a name, returning `(true, nil)`, exactly when the name
is not empty and each of its runes is a digit, `.`, `@` or a code point from `A`
to `z`, and it returns the validation error otherwise. The six code points
between `Z` and `a` (U+005B to U+0060) are in the accepted class and outside
`[A-Za-z0-9.@]`; so the name `a_b` passes validation and `New` inserts its
record. -/
theorem isValid_language :
    (∀ u : User, (u.isValid = (true, none) ↔
        u.Name.data ≠ [] ∧ ∀ c ∈ u.Name.data, inRanges c acceptedRanges = true) ∧
      (u.isValid = (true, none) ∨ u.isValid = (false, some Error.validation))) ∧
    (∀ c ∈ [Char.ofNat 91, Char.ofNat 92, Char.ofNat 93, Char.ofNat 94, Char.ofNat 95,
        Char.ofNat 96],
      inRanges c acceptedRanges = true ∧ inRanges c nameRanges = true ∧
        inRanges c grammarRanges = false) ∧
    (Char.ofNat 95 ∈ "a_b".data ∧
      (User.mk "a_b" []).isValid = (true, none) ∧
      (New Env.ok "a_b" [] ⟨[], [], []⟩).1.2 = none ∧
      (New Env.ok "a_b" [] ⟨[], [], []⟩).2.users = [⟨"a_b", []⟩]) := by
  refine ⟨?_, by decide, by decide⟩
  intro u
  constructor
  · rw [isValid_iff]
    constructor
    · rintro ⟨h1, h2⟩
      exact ⟨h1, fun c hc => by rw [accepted_iff_name]; exact h2 c hc⟩
    · rintro ⟨h1, h2⟩
      exact ⟨h1, fun c hc => by rw [← accepted_iff_name]; exact h2 c hc⟩
  · by_cases h : u.isValid = (true, none)
    · exact Or.inl h
    · exact Or.inr (isValid_of_not u h)


/-! ## The guard phase read twice, and a failed deletion -/

theorem guardVerdict_conflict_iff (name : String) (repos : List Repository) :
    guardVerdict name repos = some Error.conflict ↔
      ∃ r ∈ repos, name ∈ r.Users ∧ r.Users.length = 1 := by
  unfold guardVerdict
  constructor
  · intro h
    by_contra hc
    have hn : guardLoop (repos.filter (fun r => decide (name ∈ r.Users))) = none := by
      rw [guardLoop_eq_none]
      intro r hr hl
      have := List.mem_filter.1 hr
      exact hc ⟨r, this.1, by simpa using this.2, hl⟩
    rw [hn] at h
    cases h
  · rintro ⟨r, hr, hm, hl⟩
    exact guardLoop_conflict _ ⟨r, List.mem_filter.2 ⟨hr, by simpa using hm⟩, hl⟩

/-- C13: the verdict of the guard phase is `guardVerdict name s.repos`, a function
of the name and of the repository collection alone: it is a conflict or none,
and a conflict exactly when a repository that contains the name has one user.
When the query answers and the verdict is a conflict,
`handleAssociatedRepositories` returns the conflict with the state it was given.
So for an existing identity `name`, two calls of `Remove` in a row, in
environments that answer the two queries, both return the conflict error, and
the state after the second is the state before the first. -/
theorem guard_read_only (env env2 : Env) (name : String) (s : State) (u : User)
    (hu : userFindOne env name s = .ok u)
    (hq : env.failRepoFind name = none)
    (hu2 : env2.failUserFind name = none)
    (hq2 : env2.failRepoFind name = none)
    (hv : guardVerdict name s.repos = some Error.conflict) :
    (∀ n repos, guardVerdict n repos = none ∨ guardVerdict n repos = some Error.conflict) ∧
    (∀ s1 : State, s1.repos = s.repos → guardVerdict name s1.repos = guardVerdict name s.repos) ∧
    u.handleAssociatedRepositories env s = (some Error.conflict, s) ∧
    Remove env name s = (some Error.conflict, s) ∧
    Remove env2 name (Remove env name s).2 = (some Error.conflict, s) := by
  have hsole := (guardVerdict_conflict_iff name s.repos).1 hv
  obtain ⟨-, hl, hn⟩ := userFindOne_ok env name s u hu
  have h1 := Remove_conflict env name s u hu hq hsole
  have hu2s : userFindOne env2 name s = .ok u := by
    unfold userFindOne
    rw [hu2, hl]
  refine ⟨fun n repos => guardLoop_cases _, fun s1 h => by rw [h], ?_, h1, ?_⟩
  · exact handle_conflict u env s (by rw [hn]; exact hq) (by rw [hn]; exact hsole)
  · rw [h1]
    exact Remove_conflict env2 name s u hu2s hq2 hsole

theorem guard_read_only_witness :
    (∀ n repos, guardVerdict n repos = none ∨ guardVerdict n repos = some Error.conflict) ∧
    (∀ s1 : State, s1.repos = [⟨"A", ["x", "y"]⟩, ⟨"B", ["x"]⟩] →
      guardVerdict "x" s1.repos = guardVerdict "x" [⟨"A", ["x", "y"]⟩, ⟨"B", ["x"]⟩]) ∧
    User.handleAssociatedRepositories ⟨"x", ["k"]⟩ Env.ok
      ⟨[⟨"x", ["k"]⟩], [⟨"A", ["x", "y"]⟩, ⟨"B", ["x"]⟩], []⟩
      = (some Error.conflict, ⟨[⟨"x", ["k"]⟩], [⟨"A", ["x", "y"]⟩, ⟨"B", ["x"]⟩], []⟩) ∧
    Remove Env.ok "x" ⟨[⟨"x", ["k"]⟩], [⟨"A", ["x", "y"]⟩, ⟨"B", ["x"]⟩], []⟩
      = (some Error.conflict, ⟨[⟨"x", ["k"]⟩], [⟨"A", ["x", "y"]⟩, ⟨"B", ["x"]⟩], []⟩) ∧
    Remove (Env.userRemoveFails "down") "x"
      (Remove Env.ok "x" ⟨[⟨"x", ["k"]⟩], [⟨"A", ["x", "y"]⟩, ⟨"B", ["x"]⟩], []⟩).2
      = (some Error.conflict, ⟨[⟨"x", ["k"]⟩], [⟨"A", ["x", "y"]⟩, ⟨"B", ["x"]⟩], []⟩) :=
  guard_read_only Env.ok (Env.userRemoveFails "down") "x"
    ⟨[⟨"x", ["k"]⟩], [⟨"A", ["x", "y"]⟩, ⟨"B", ["x"]⟩], []⟩ ⟨"x", ["k"]⟩ rfl rfl rfl rfl
    (by decide)

theorem userRemoveId_failed (env : Env) (id : String) (s : State) (e : StoreError)
    (h : (userRemoveId env id s).1 = some e) :
    userRemoveId env id s = (some e, ⟨s.users, s.repos, s.trace ++ [Call.userRemoveId id]⟩) := by
  unfold userRemoveId at h ⊢
  cases h1 : env.failUserRemove id <;> cases h2 : deleteDoc User.Name id s.users <;>
    simp [h1, h2] at h ⊢ <;> exact h

/-- C12: for an existing identity `u` named `name`, when the revocation
(`handleAssociatedRepositories`) succeeds and the deletion of the record then
fails with `e`, `Remove` returns `Could not remove user:` wrapping `e`; the
repository collection is the one the revocation left, so its updates stay
committed; the identity collection is untouched and the record of `u` is there
with its keys; and the trace grows by the updates of repositories and the failed
deletion only, so the bulk-remove of the gateway is not called. -/
theorem Remove_delete_failed (env : Env) (name : String) (s : State) (u : User) (e : StoreError)
    (hu : userFindOne env name s = .ok u)
    (hh : (u.handleAssociatedRepositories env s).1 = none)
    (hdel : (userRemoveId env name (u.handleAssociatedRepositories env s).2).1 = some e) :
    (Remove env name s).1 = some (Error.couldNotRemove e) ∧
    (Remove env name s).2.repos = (u.handleAssociatedRepositories env s).2.repos ∧
    (Remove env name s).2.users = s.users ∧
    lookupDoc User.Name name (Remove env name s).2.users = some u ∧
    (∃ ws, (∀ c ∈ ws, ∃ id r, c = Call.repoUpdate id r) ∧
      (u.handleAssociatedRepositories env s).2.trace = s.trace ++ ws ∧
      (Remove env name s).2.trace = s.trace ++ ws ++ [Call.userRemoveId name]) ∧
    (∀ keys n, Call.gateway (GatewayCall.bulkRemove keys n) ∈ (Remove env name s).2.trace →
      Call.gateway (GatewayCall.bulkRemove keys n) ∈ s.trace) := by
  obtain ⟨-, hl, hn⟩ := userFindOne_ok env name s u hu
  obtain ⟨hus, -, ⟨ws, hws, hall⟩, -⟩ := handle_frame u env s
  have hf := userRemoveId_failed env name _ e hdel
  rcases hs : u.handleAssociatedRepositories env s with ⟨r0, s1⟩
  rw [hs] at hh hus hws hf
  simp only at hh hus hws hf
  subst hh
  have hR : Remove env name s =
      (some (Error.couldNotRemove e), ⟨s1.users, s1.repos, s1.trace ++ [Call.userRemoveId name]⟩) := by
    unfold Remove
    rw [hu]
    simp only
    rw [hs]
    simp only
    rw [hn, hf]
  rw [hR]
  refine ⟨rfl, rfl, hus, by simp only [hus]; exact hl, ⟨ws, hall, hws, by simp [hws]⟩, ?_⟩
  intro keys n hmem
  simp only [hws, List.mem_append, List.mem_singleton] at hmem
  rcases hmem with (h | h) | h
  · exact h
  · obtain ⟨id, r, hc⟩ := hall _ h
    cases hc
  · cases h

theorem Remove_delete_failed_witness :
    (Remove (Env.userRemoveFails "down") "x"
      ⟨[⟨"x", ["k"]⟩], [⟨"A", ["x", "y"]⟩], []⟩).1
      = some (Error.couldNotRemove (StoreError.fault "down")) ∧
    (Remove (Env.userRemoveFails "down") "x" ⟨[⟨"x", ["k"]⟩], [⟨"A", ["x", "y"]⟩], []⟩).2.repos
      = (User.handleAssociatedRepositories ⟨"x", ["k"]⟩ (Env.userRemoveFails "down")
          ⟨[⟨"x", ["k"]⟩], [⟨"A", ["x", "y"]⟩], []⟩).2.repos ∧
    (Remove (Env.userRemoveFails "down") "x" ⟨[⟨"x", ["k"]⟩], [⟨"A", ["x", "y"]⟩], []⟩).2.users
      = [⟨"x", ["k"]⟩] ∧
    lookupDoc User.Name "x"
      (Remove (Env.userRemoveFails "down") "x" ⟨[⟨"x", ["k"]⟩], [⟨"A", ["x", "y"]⟩], []⟩).2.users
      = some ⟨"x", ["k"]⟩ ∧
    (∃ ws, (∀ c ∈ ws, ∃ id r, c = Call.repoUpdate id r) ∧
      (User.handleAssociatedRepositories ⟨"x", ["k"]⟩ (Env.userRemoveFails "down")
          ⟨[⟨"x", ["k"]⟩], [⟨"A", ["x", "y"]⟩], []⟩).2.trace = [] ++ ws ∧
      (Remove (Env.userRemoveFails "down") "x" ⟨[⟨"x", ["k"]⟩], [⟨"A", ["x", "y"]⟩], []⟩).2.trace
        = [] ++ ws ++ [Call.userRemoveId "x"]) ∧
    (∀ keys n, Call.gateway (GatewayCall.bulkRemove keys n) ∈
        (Remove (Env.userRemoveFails "down") "x"
          ⟨[⟨"x", ["k"]⟩], [⟨"A", ["x", "y"]⟩], []⟩).2.trace →
      Call.gateway (GatewayCall.bulkRemove keys n) ∈ ([] : List Call)) :=
  Remove_delete_failed (Env.userRemoveFails "down") "x" ⟨[⟨"x", ["k"]⟩], [⟨"A", ["x", "y"]⟩], []⟩
    ⟨"x", ["k"]⟩ (StoreError.fault "down") rfl rfl rfl


/-! ## Swap-remove, slot by slot -/

theorem swapRemove_getElem? (users : List String) (i j : Nat) (hj : j < users.length - 1) :
    (swapRemove users i)[j]? = if j = i then users.getLast? else users[j]? := by
  unfold swapRemove
  cases hl : users.getLast? with
  | none =>
    rw [List.getLast?_eq_none_iff] at hl
    subst hl
    simp at hj
  | some last =>
    simp only
    rw [List.getElem?_take_of_lt hj, List.getElem?_set]
    by_cases hji : j = i
    · subst hji
      have : j < users.length := by omega
      simp [this]
    · have : ¬ i = j := fun e => hji e.symm
      simp [hji, this]

theorem firstIndex_first (name : String) (users : List String) (i : Nat)
    (h : firstIndex name users 0 = some i) :
    users[i]? = some name ∧ ∀ j, j < i → users[j]? ≠ some name := by
  obtain ⟨pre, post, e, hn, hi⟩ := firstIndex_some name users 0 i h
  simp only [Nat.zero_add] at hi
  subst e hi
  constructor
  · rw [List.getElem?_append_right (Nat.le_refl _)]
    simp
  · intro j hj hc
    rw [List.getElem?_append_left hj] at hc
    exact hn (List.getElem?_mem hc)

/-- C14: let the query answer, no repository that contains the name have exactly
one user, no update fail, and the store hold one document per repository name.
For a repository `r` whose users contain the name (so of length at least 2),
with `i` the slot of the first occurrence of the name, the document that
`handleAssociatedRepositories` persists for `r` (sent in the trace and stored
under the name of `r`) has a users list that is a permutation of the old one
with one occurrence of the name erased; its length is the old length minus one;
and each slot `j` that is kept holds the old last element when `j = i` and the
old element of slot `j` otherwise. Consequently a list with the name twice keeps
one of them: on the store with the identity `x` and the repository `A` with
users `[x, x, y]`, `Remove x` succeeds, deletes the record, and leaves `A` with
users `[y, x]`. -/
theorem swapRemove_one_occurrence (u : User) (env : Env) (s : State) (r : Repository)
    (hq : env.failRepoFind u.Name = none)
    (hsole : ∀ r ∈ s.repos, u.Name ∈ r.Users → r.Users.length ≠ 1)
    (hw : ∀ id r, env.failRepoUpdate id r = none)
    (hnd : (s.repos.map Repository.Name).Nodup)
    (hr : r ∈ s.repos) (hx : u.Name ∈ r.Users) :
    (∃ i r1, r.Users[i]? = some u.Name ∧ (∀ j, j < i → r.Users[j]? ≠ some u.Name) ∧
      2 ≤ r.Users.length ∧
      Call.repoUpdate r.Name r1 ∈ (u.handleAssociatedRepositories env s).2.trace ∧
      lookupDoc Repository.Name r.Name (u.handleAssociatedRepositories env s).2.repos = some r1 ∧
      r1.Users.Perm (r.Users.erase u.Name) ∧
      r1.Users.length = r.Users.length - 1 ∧
      ∀ j, j < r.Users.length - 1 →
        r1.Users[j]? = if j = i then r.Users.getLast? else r.Users[j]?) ∧
    Remove Env.ok "x" ⟨[⟨"x", []⟩], [⟨"A", ["x", "x", "y"]⟩], []⟩ =
      (none, ⟨[], [⟨"A", ["y", "x"]⟩],
        [Call.repoUpdate "A" ⟨"A", ["y", "x"]⟩, Call.userRemoveId "x",
          Call.gateway (GatewayCall.bulkRemove [] "x")]⟩) := by
  refine ⟨?_, by decide⟩
  cases hi : firstIndex u.Name r.Users 0 with
  | none => exact absurd hx ((firstIndex_eq_none u.Name r.Users 0).1 hi)
  | some i =>
    have hrev : revoke u.Name r = { r with Users := swapRemove r.Users i } := by
      unfold revoke
      rw [hi]
    have hfirst := firstIndex_first u.Name r.Users i hi
    have hlen : 2 ≤ r.Users.length := by
      have h1 := hsole r hr hx
      have h2 : 0 < r.Users.length := List.length_pos_of_mem hx
      omega
    rw [handle_eq u env s hq hsole hw hnd]
    refine ⟨i, revoke u.Name r, hfirst.1, hfirst.2, hlen, ?_, ?_, ?_, ?_, ?_⟩
    · simp only [List.mem_append, List.mem_map, List.mem_filter]
      exact Or.inr ⟨r, ⟨hr, by simpa using hx⟩, rfl⟩
    · exact lookupDoc_map_of_mem Repository.Name (revoke u.Name) s.repos r (revoke_name u.Name) hnd hr
    · rw [hrev]
      exact swapRemove_perm_erase u.Name r.Users i hi
    · rw [hrev]
      exact swapRemove_length u.Name r.Users i hi
    · intro j hj
      rw [hrev]
      exact swapRemove_getElem? r.Users i j hj

theorem swapRemove_one_occurrence_witness :
    (∃ i r1, (["y", "x", "z", "x", "w"] : List String)[i]? = some "x" ∧
      (∀ j, j < i → (["y", "x", "z", "x", "w"] : List String)[j]? ≠ some "x") ∧
      2 ≤ (["y", "x", "z", "x", "w"] : List String).length ∧
      Call.repoUpdate "A" r1 ∈
        (User.handleAssociatedRepositories ⟨"x", []⟩ Env.ok
          ⟨[⟨"x", []⟩], [⟨"A", ["y", "x", "z", "x", "w"]⟩], []⟩).2.trace ∧
      lookupDoc Repository.Name "A"
        (User.handleAssociatedRepositories ⟨"x", []⟩ Env.ok
          ⟨[⟨"x", []⟩], [⟨"A", ["y", "x", "z", "x", "w"]⟩], []⟩).2.repos = some r1 ∧
      r1.Users.Perm ((["y", "x", "z", "x", "w"] : List String).erase "x") ∧
      r1.Users.length = (["y", "x", "z", "x", "w"] : List String).length - 1 ∧
      ∀ j, j < (["y", "x", "z", "x", "w"] : List String).length - 1 →
        r1.Users[j]? = if j = i then (["y", "x", "z", "x", "w"] : List String).getLast?
          else (["y", "x", "z", "x", "w"] : List String)[j]?) ∧
    Remove Env.ok "x" ⟨[⟨"x", []⟩], [⟨"A", ["x", "x", "y"]⟩], []⟩ =
      (none, ⟨[], [⟨"A", ["y", "x"]⟩],
        [Call.repoUpdate "A" ⟨"A", ["y", "x"]⟩, Call.userRemoveId "x",
          Call.gateway (GatewayCall.bulkRemove [] "x")]⟩) :=
  swapRemove_one_occurrence ⟨"x", []⟩ Env.ok
    ⟨[⟨"x", []⟩], [⟨"A", ["y", "x", "z", "x", "w"]⟩], []⟩ ⟨"A", ["y", "x", "z", "x", "w"]⟩
    rfl (by decide) (fun _ _ => rfl) (by decide) (by decide) (by decide)


/-! ## The frame of `Remove` -/

theorem map_revoke_step (name : String) (repos : List Repository) (r : Repository)
    (done : List Repository) (hnd : (repos.map Repository.Name).Nodup) (hr : r ∈ repos)
    (hdone : ∀ d ∈ done, d.Name ≠ r.Name) :
    (repos.map (fun e => if e.Name = r.Name then revoke name r else e)).map
        (fun d => if d ∈ done then revoke name d else d) =
      repos.map (fun d => if d ∈ r :: done then revoke name d else d) := by
  rw [List.map_map]
  apply List.map_congr_left
  intro d hd
  simp only [Function.comp]
  by_cases hdn : d.Name = r.Name
  · have hdr : d = r := mem_of_nodup_key Repository.Name repos hnd d r hd hr hdn
    subst hdr
    have hnot : ¬ revoke name d ∈ done := fun hin => hdone _ hin (revoke_name name d)
    simp [hnot]
  · have hdr : d ≠ r := fun e => hdn (by rw [e])
    simp [hdn, hdr]

theorem repoUpdate_fault (env : Env) (id : String) (r : Repository) (s : State) (msg : String)
    (h : env.failRepoUpdate id r = some msg) :
    repoUpdate env id r s =
      (some (StoreError.fault msg), ⟨s.users, s.repos, s.trace ++ [Call.repoUpdate id r]⟩) := by
  unfold repoUpdate
  rw [h]

/-- The repository collection after the second loop, in any environment: the
repositories of some part of the query are replaced by their revoked versions,
in place, and the others are as they were. -/
theorem revokeLoop_repos (env : Env) (name : String) (rs : List Repository) (s : State)
    (hnd : (s.repos.map Repository.Name).Nodup)
    (hsub : ∀ r ∈ rs, r ∈ s.repos)
    (hrs : (rs.map Repository.Name).Nodup) :
    ∃ done : List Repository, (∀ d ∈ done, d ∈ rs) ∧
      (revokeLoop env name rs s).2.repos =
        s.repos.map (fun d => if d ∈ done then revoke name d else d) := by
  induction rs generalizing s with
  | nil => exact ⟨[], by simp, by simp [revokeLoop]⟩
  | cons r rs ih =>
    rw [List.map_cons, List.nodup_cons] at hrs
    have hr : r ∈ s.repos := hsub r (List.mem_cons_self _ _)
    unfold revokeLoop
    cases hi : firstIndex name r.Users 0 with
    | none =>
      simp only
      obtain ⟨done, hd, he⟩ := ih s hnd (fun r0 hr0 => hsub r0 (List.mem_cons_of_mem _ hr0)) hrs.2
      exact ⟨done, fun d h => List.mem_cons_of_mem _ (hd d h), he⟩
    | some i =>
      simp only
      have hrev : revoke name r = { r with Users := swapRemove r.Users i } := by
        unfold revoke
        rw [hi]
      rw [← hrev]
      cases hf : env.failRepoUpdate r.Name (revoke name r) with
      | some msg =>
        rw [repoUpdate_fault env r.Name (revoke name r) s msg hf]
        exact ⟨[], by simp, by simp⟩
      | none =>
        obtain ⟨cur, hcur, hu⟩ := repoUpdate_ok env (revoke name r) s
          (by rw [revoke_name]; exact hf) (by rw [revoke_name]; exact List.mem_map.2 ⟨r, hr, rfl⟩)
        rw [revoke_name] at hu hcur
        rw [hu]
        simp only
        have hcur2 := replaceDoc_eq_map Repository.Name r.Name _ s.repos cur hcur hnd
        have hkeys : cur.map Repository.Name = s.repos.map Repository.Name :=
          replaceDoc_map_key Repository.Name r.Name _ s.repos cur hcur (revoke_name name r)
        have hsub1 : ∀ r0 ∈ rs, r0 ∈ cur := by
          intro r0 hr0
          have h0 : r0 ∈ s.repos := hsub r0 (List.mem_cons_of_mem _ hr0)
          have hne : ¬ r0.Name = r.Name := by
            intro e
            exact hrs.1 (by rw [← e]; exact List.mem_map_of_mem Repository.Name hr0)
          rw [hcur2]
          refine List.mem_map.2 ⟨r0, h0, ?_⟩
          simp [hne]
        obtain ⟨done, hd, he⟩ := ih
          ⟨s.users, cur, s.trace ++ [Call.repoUpdate r.Name (revoke name r)]⟩
          (by simpa [hkeys] using hnd) hsub1 hrs.2
        refine ⟨r :: done, ?_, ?_⟩
        · intro d h
          rcases List.mem_cons.1 h with e | e
          · rw [e]
            exact List.mem_cons_self _ _
          · exact List.mem_cons_of_mem _ (hd d e)
        · rw [he]
          simp only
          rw [hcur2]
          apply map_revoke_step name s.repos r done hnd hr
          intro d hdd e
          exact hrs.1 (by rw [← e]; exact List.mem_map_of_mem Repository.Name (hd d hdd))

/-- The repository collection after `Remove`, in any environment. -/
theorem Remove_repos (env : Env) (name : String) (s : State)
    (hnd : (s.repos.map Repository.Name).Nodup) :
    ∃ done : List Repository, (∀ d ∈ done, d ∈ s.repos ∧ name ∈ d.Users) ∧
      (Remove env name s).2.repos =
        s.repos.map (fun d => if d ∈ done then revoke name d else d) := by
  have hnone : ∃ done : List Repository, (∀ d ∈ done, d ∈ s.repos ∧ name ∈ d.Users) ∧
      s.repos = s.repos.map (fun d => if d ∈ done then revoke name d else d) :=
    ⟨[], by simp, by simp⟩
  unfold Remove
  cases hu : userFindOne env name s with
  | error e => exact hnone
  | ok u =>
    simp only
    have hn := (userFindOne_ok env name s u hu).2.2
    have hH : ∃ done : List Repository, (∀ d ∈ done, d ∈ s.repos ∧ name ∈ d.Users) ∧
        (u.handleAssociatedRepositories env s).2.repos =
          s.repos.map (fun d => if d ∈ done then revoke name d else d) := by
      unfold User.handleAssociatedRepositories
      rw [hn]
      cases hq : repoFindAll env name s with
      | error e => exact hnone
      | ok repos =>
        simp only
        have hrepos := repoFindAll_mem env name s repos hq
        cases hg : guardLoop repos with
        | some e => exact hnone
        | none =>
          simp only
          subst hrepos
          obtain ⟨done, hd, he⟩ := revokeLoop_repos env name _ s hnd
            (fun r hr => (List.mem_filter.1 hr).1)
            ((List.filter_sublist _).map Repository.Name |>.nodup hnd)
          refine ⟨done, ?_, he⟩
          intro d hdd
          have := List.mem_filter.1 (hd d hdd)
          exact ⟨this.1, by simpa using this.2⟩
    rcases hh : u.handleAssociatedRepositories env s with ⟨_ | e, s1⟩
    · rw [hh] at hH
      simp only at hH ⊢
      have hr := userRemoveId_repos env u.Name s1
      rcases hd : userRemoveId env u.Name s1 with ⟨_ | e, s2⟩
      · rw [hd] at hr
        simp only at hr ⊢
        rw [keyBulkRemove, gatewayCall_repos, hr]
        exact hH
      · rw [hd] at hr
        simp only at hr ⊢
        rw [hr]
        exact hH
    · rw [hh] at hH
      exact hH

theorem userRemoveId_users (env : Env) (id : String) (s : State) (u : User)
    (hl : lookupDoc User.Name id s.users = some u) :
    (userRemoveId env id s).2.users = s.users ∨
      (userRemoveId env id s).2.users = s.users.erase u := by
  unfold userRemoveId
  rw [deleteDoc_of_lookup User.Name id s.users u hl]
  cases env.failUserRemove id
  · exact Or.inr rfl
  · exact Or.inl rfl

/-- The identity collection after `Remove`, in any environment: as it was, or
without the record of the name that the lookup found. -/
theorem Remove_users (env : Env) (name : String) (s : State) :
    (Remove env name s).2.users = s.users ∨
      ∃ u, u.Name = name ∧ (Remove env name s).2.users = s.users.erase u := by
  unfold Remove
  cases hu : userFindOne env name s with
  | error e => exact Or.inl rfl
  | ok u =>
    simp only
    obtain ⟨-, hl, hn⟩ := userFindOne_ok env name s u hu
    have hus := (handle_frame u env s).1
    rcases hh : u.handleAssociatedRepositories env s with ⟨_ | e, s1⟩
    · rw [hh] at hus
      simp only at hus ⊢
      have hr := userRemoveId_users env u.Name s1 u (by rw [hus, hn]; exact hl)
      rw [hus] at hr
      rcases hd : userRemoveId env u.Name s1 with ⟨_ | e, s2⟩
      · rw [hd] at hr
        simp only at hr ⊢
        rw [keyBulkRemove]
        change s2.users = s.users ∨ ∃ u, u.Name = name ∧ s2.users = s.users.erase u
        rcases hr with h | h
        · exact Or.inl h
        · exact Or.inr ⟨u, hn, h⟩
      · rw [hd] at hr
        simp only at hr ⊢
        rcases hr with h | h
        · exact Or.inl h
        · exact Or.inr ⟨u, hn, h⟩
    · rw [hh] at hus
      exact Or.inl hus

theorem revoke_keeps_others (name : String) (r : Repository) (z : String)
    (hz : z ∈ r.Users) (hne : z ≠ name) : z ∈ (revoke name r).Users := by
  unfold revoke
  cases hi : firstIndex name r.Users 0 with
  | none => exact hz
  | some i =>
    simp only
    rw [(swapRemove_perm_erase name r.Users i hi).mem_iff]
    exact (List.mem_erase_of_ne hne).2 hz

/-- C17: in a store with one document per repository name, for every name and
every environment, so whatever the outcome of `Remove`: every repository whose
users do not contain the name is stored as it was; every identity record with
another name is unchanged (the same records, found by the same lookups); the
collection has the same repository names in the same order; and under the name
of each repository the stored document still lists every user other than the
name that the repository listed before. -/
theorem Remove_frame (env : Env) (name : String) (s : State)
    (hnd : (s.repos.map Repository.Name).Nodup) :
    (∀ r ∈ s.repos, name ∉ r.Users →
      r ∈ (Remove env name s).2.repos ∧
      lookupDoc Repository.Name r.Name (Remove env name s).2.repos = some r) ∧
    (∀ v : User, v.Name ≠ name → (v ∈ (Remove env name s).2.users ↔ v ∈ s.users)) ∧
    (∀ n, n ≠ name →
      lookupDoc User.Name n (Remove env name s).2.users = lookupDoc User.Name n s.users) ∧
    (Remove env name s).2.repos.map Repository.Name = s.repos.map Repository.Name ∧
    (∀ r ∈ s.repos, ∃ r1, lookupDoc Repository.Name r.Name (Remove env name s).2.repos = some r1 ∧
      ∀ z ∈ r.Users, z ≠ name → z ∈ r1.Users) := by
  obtain ⟨done, hdone, hrepos⟩ := Remove_repos env name s hnd
  have hkey : ∀ e : Repository,
      (if e ∈ done then revoke name e else e).Name = e.Name := by
    intro e
    by_cases h : e ∈ done
    · simp [h, revoke_name]
    · simp [h]
  have hlook : ∀ r ∈ s.repos, lookupDoc Repository.Name r.Name (Remove env name s).2.repos =
      some (if r ∈ done then revoke name r else r) := by
    intro r hr
    rw [hrepos]
    exact lookupDoc_map_of_mem Repository.Name (fun d => if d ∈ done then revoke name d else d)
      s.repos r hkey hnd hr
  refine ⟨?_, ?_, ?_, ?_, ?_⟩
  · intro r hr hn
    have hnot : ¬ r ∈ done := fun h => hn (hdone r h).2
    have h1 := hlook r hr
    simp only [hnot, if_false] at h1
    refine ⟨?_, h1⟩
    rw [hrepos]
    exact List.mem_map.2 ⟨r, hr, by simp [hnot]⟩
  · intro v hv
    rcases Remove_users env name s with h | ⟨u, hu, h⟩
    · rw [h]
    · rw [h]
      exact List.mem_erase_of_ne (fun e => hv (by rw [e]; exact hu))
  · intro n hn
    rcases Remove_users env name s with h | ⟨u, hu, h⟩
    · rw [h]
    · rw [h]
      exact lookupDoc_erase_of_ne User.Name n s.users u (by rw [hu]; exact fun e => hn e.symm)
  · rw [hrepos, List.map_map]
    apply List.map_congr_left
    intro d _
    exact hkey d
  · intro r hr
    refine ⟨_, hlook r hr, ?_⟩
    intro z hz hne
    by_cases h : r ∈ done
    · simp only [h, if_true]
      exact revoke_keeps_others name r z hz hne
    · simp only [h, if_false]
      exact hz

theorem Remove_frame_witness :
    (∀ r ∈ [(⟨"A", ["x", "y", "w"]⟩ : Repository), ⟨"B", ["x", "z"]⟩, ⟨"C", ["y"]⟩], "x" ∉ r.Users →
      r ∈ (Remove (Env.repoUpdateFails "B" "down") "x"
        ⟨[⟨"x", []⟩, ⟨"y", ["k"]⟩], [⟨"A", ["x", "y", "w"]⟩, ⟨"B", ["x", "z"]⟩, ⟨"C", ["y"]⟩],
          []⟩).2.repos ∧
      lookupDoc Repository.Name r.Name (Remove (Env.repoUpdateFails "B" "down") "x"
        ⟨[⟨"x", []⟩, ⟨"y", ["k"]⟩], [⟨"A", ["x", "y", "w"]⟩, ⟨"B", ["x", "z"]⟩, ⟨"C", ["y"]⟩],
          []⟩).2.repos = some r) ∧
    (∀ v : User, v.Name ≠ "x" → (v ∈ (Remove (Env.repoUpdateFails "B" "down") "x"
        ⟨[⟨"x", []⟩, ⟨"y", ["k"]⟩], [⟨"A", ["x", "y", "w"]⟩, ⟨"B", ["x", "z"]⟩, ⟨"C", ["y"]⟩],
          []⟩).2.users ↔ v ∈ [(⟨"x", []⟩ : User), ⟨"y", ["k"]⟩])) ∧
    (∀ n, n ≠ "x" →
      lookupDoc User.Name n (Remove (Env.repoUpdateFails "B" "down") "x"
        ⟨[⟨"x", []⟩, ⟨"y", ["k"]⟩], [⟨"A", ["x", "y", "w"]⟩, ⟨"B", ["x", "z"]⟩, ⟨"C", ["y"]⟩],
          []⟩).2.users = lookupDoc User.Name n [⟨"x", []⟩, ⟨"y", ["k"]⟩]) ∧
    (Remove (Env.repoUpdateFails "B" "down") "x"
        ⟨[⟨"x", []⟩, ⟨"y", ["k"]⟩], [⟨"A", ["x", "y", "w"]⟩, ⟨"B", ["x", "z"]⟩, ⟨"C", ["y"]⟩],
          []⟩).2.repos.map Repository.Name
      = [(⟨"A", ["x", "y", "w"]⟩ : Repository), ⟨"B", ["x", "z"]⟩, ⟨"C", ["y"]⟩].map
          Repository.Name ∧
    (∀ r ∈ [(⟨"A", ["x", "y", "w"]⟩ : Repository), ⟨"B", ["x", "z"]⟩, ⟨"C", ["y"]⟩],
      ∃ r1, lookupDoc Repository.Name r.Name (Remove (Env.repoUpdateFails "B" "down") "x"
        ⟨[⟨"x", []⟩, ⟨"y", ["k"]⟩], [⟨"A", ["x", "y", "w"]⟩, ⟨"B", ["x", "z"]⟩, ⟨"C", ["y"]⟩],
          []⟩).2.repos = some r1 ∧
      ∀ z ∈ r.Users, z ≠ "x" → z ∈ r1.Users) :=
  Remove_frame (Env.repoUpdateFails "B" "down") "x"
    ⟨[⟨"x", []⟩, ⟨"y", ["k"]⟩], [⟨"A", ["x", "y", "w"]⟩, ⟨"B", ["x", "z"]⟩, ⟨"C", ["y"]⟩], []⟩
    (by decide)


/-! ## A failed update in the second loop -/

/-- The second loop when the updates of the repositories `pre` go through and the
update of the next one, `r`, fails: it stops there. -/
theorem revokeLoop_stops (env : Env) (name : String) (pre post : List Repository)
    (r : Repository) (s : State) (msg : String)
    (hnd : (s.repos.map Repository.Name).Nodup)
    (hsub : ∀ r0 ∈ pre ++ r :: post, r0 ∈ s.repos)
    (hrs : ((pre ++ r :: post).map Repository.Name).Nodup)
    (hall : ∀ r0 ∈ pre ++ r :: post, name ∈ r0.Users)
    (hpre : ∀ r0 ∈ pre, env.failRepoUpdate r0.Name (revoke name r0) = none)
    (hfail : env.failRepoUpdate r.Name (revoke name r) = some msg) :
    revokeLoop env name (pre ++ r :: post) s =
      (some (Error.store (StoreError.fault msg)),
        ⟨s.users, s.repos.map (fun d => if d ∈ pre then revoke name d else d),
          s.trace ++ pre.map (fun r0 => Call.repoUpdate r0.Name (revoke name r0)) ++
            [Call.repoUpdate r.Name (revoke name r)]⟩) := by
  induction pre generalizing s with
  | nil =>
    simp only [List.nil_append]
    unfold revokeLoop
    cases hi : firstIndex name r.Users 0 with
    | none =>
      exact absurd (hall r (by simp)) ((firstIndex_eq_none name r.Users 0).1 hi)
    | some i =>
      simp only
      have hrev : revoke name r = { r with Users := swapRemove r.Users i } := by
        unfold revoke
        rw [hi]
      rw [← hrev, repoUpdate_fault env r.Name (revoke name r) s msg hfail]
      simp
  | cons p pre ih =>
    rw [List.cons_append, List.map_cons, List.nodup_cons] at hrs
    have hp : p ∈ s.repos := hsub p (by simp)
    rw [List.cons_append]
    unfold revokeLoop
    cases hi : firstIndex name p.Users 0 with
    | none =>
      exact absurd (hall p (by simp)) ((firstIndex_eq_none name p.Users 0).1 hi)
    | some i =>
      simp only
      have hrev : revoke name p = { p with Users := swapRemove p.Users i } := by
        unfold revoke
        rw [hi]
      rw [← hrev]
      obtain ⟨cur, hcur, hu⟩ := repoUpdate_ok env (revoke name p) s
        (by rw [revoke_name]; exact hpre p (by simp))
        (by rw [revoke_name]; exact List.mem_map.2 ⟨p, hp, rfl⟩)
      rw [revoke_name] at hu hcur
      rw [hu]
      simp only
      have hcur2 := replaceDoc_eq_map Repository.Name p.Name _ s.repos cur hcur hnd
      have hkeys : cur.map Repository.Name = s.repos.map Repository.Name :=
        replaceDoc_map_key Repository.Name p.Name _ s.repos cur hcur (revoke_name name p)
      have hsub1 : ∀ r0 ∈ pre ++ r :: post, r0 ∈ cur := by
        intro r0 hr0
        have h0 : r0 ∈ s.repos := hsub r0 (List.mem_cons_of_mem _ hr0)
        have hne : ¬ r0.Name = p.Name := by
          intro e
          exact hrs.1 (by rw [← e]; exact List.mem_map_of_mem Repository.Name hr0)
        rw [hcur2]
        refine List.mem_map.2 ⟨r0, h0, ?_⟩
        simp [hne]
      rw [ih ⟨s.users, cur, s.trace ++ [Call.repoUpdate p.Name (revoke name p)]⟩
        (by simpa [hkeys] using hnd) hsub1 hrs.2
        (fun r0 h => hall r0 (List.mem_cons_of_mem _ h))
        (fun r0 h => hpre r0 (List.mem_cons_of_mem _ h))]
      simp only
      rw [hcur2, map_revoke_step name s.repos p pre hnd hp
        (fun d hd e => hrs.1 (by
          rw [← e]
          exact List.mem_map_of_mem Repository.Name (List.mem_append_left _ hd)))]
      simp

theorem revoke_perm (name : String) (r : Repository) (hx : name ∈ r.Users) :
    (revoke name r).Users.Perm (r.Users.erase name) := by
  unfold revoke
  cases hi : firstIndex name r.Users 0 with
  | none => exact absurd hx ((firstIndex_eq_none name r.Users 0).1 hi)
  | some i => exact swapRemove_perm_erase name r.Users i hi

/-- C11 (the code departs from the claim): with the repositories `A` (users
`[x, x, y]`) and `B` (users `[x, z]`), neither with exactly one user, and the
update of `B` failing, `Remove x` stops at `B` with that error, and `A`,
processed before `B`, is persisted with users `[y, x]`: the name is still in
it, where the claim and the comment of `Remove` ("removes ... from
repositories", "first revoke user's access") have it removed. -/
theorem Remove_partial_failure_keeps_duplicate :
    (∀ r ∈ [(⟨"A", ["x", "x", "y"]⟩ : Repository), ⟨"B", ["x", "z"]⟩],
      "x" ∈ r.Users → r.Users.length ≠ 1) ∧
    [(⟨"A", ["x", "x", "y"]⟩ : Repository), ⟨"B", ["x", "z"]⟩].filter
      (fun r => decide ("x" ∈ r.Users)) = [⟨"A", ["x", "x", "y"]⟩, ⟨"B", ["x", "z"]⟩] ∧
    Remove (Env.repoUpdateFails "B" "down") "x"
      ⟨[⟨"x", ["k"]⟩], [⟨"A", ["x", "x", "y"]⟩, ⟨"B", ["x", "z"]⟩], []⟩ =
      (some (Error.store (StoreError.fault "down")),
        ⟨[⟨"x", ["k"]⟩], [⟨"A", ["y", "x"]⟩, ⟨"B", ["x", "z"]⟩],
          [Call.repoUpdate "A" ⟨"A", ["y", "x"]⟩, Call.repoUpdate "B" ⟨"B", ["z"]⟩]⟩) ∧
    lookupDoc Repository.Name "A"
      (Remove (Env.repoUpdateFails "B" "down") "x"
        ⟨[⟨"x", ["k"]⟩], [⟨"A", ["x", "x", "y"]⟩, ⟨"B", ["x", "z"]⟩], []⟩).2.repos
      = some ⟨"A", ["y", "x"]⟩ ∧
    "x" ∈ (⟨"A", ["y", "x"]⟩ : Repository).Users := by
  decide

/-- What the code does when an update fails in the second loop: for an existing
identity `u` named `name`, let the query answer `pre ++ r :: post`, no repository that contains `name` have exactly one
user, the updates of the repositories of `pre` go through and the update of `r`
fail, in a store with one document per repository name. Then
`handleAssociatedRepositories` stops at `r` and returns that error, and `Remove`
returns it with the same state: each repository of `pre` is stored with one
occurrence of `name` swap-removed (its users are a permutation of the old ones
with one `name` erased, so without `name` when the old list had no duplicates);
`r` and the repositories of `post` are stored as they were; the identity record
is still there; and the trace grows by the updates of `pre` and the failed
update of `r` only, so the record is not deleted and the gateway is not
called. -/
theorem Remove_partial_failure (env : Env) (name : String) (s : State) (u : User)
    (pre post : List Repository) (r : Repository) (msg : String)
    (hu : userFindOne env name s = .ok u)
    (hq : env.failRepoFind name = none)
    (hsole : ∀ r ∈ s.repos, name ∈ r.Users → r.Users.length ≠ 1)
    (hnd : (s.repos.map Repository.Name).Nodup)
    (hsplit : s.repos.filter (fun r => decide (name ∈ r.Users)) = pre ++ r :: post)
    (hpre : ∀ r0 ∈ pre, env.failRepoUpdate r0.Name (revoke name r0) = none)
    (hfail : env.failRepoUpdate r.Name (revoke name r) = some msg) :
    u.handleAssociatedRepositories env s =
      (some (Error.store (StoreError.fault msg)),
        ⟨s.users, s.repos.map (fun d => if d ∈ pre then revoke name d else d),
          s.trace ++ pre.map (fun r0 => Call.repoUpdate r0.Name (revoke name r0)) ++
            [Call.repoUpdate r.Name (revoke name r)]⟩) ∧
    Remove env name s = u.handleAssociatedRepositories env s ∧
    (∀ r0 ∈ pre,
      lookupDoc Repository.Name r0.Name (Remove env name s).2.repos = some (revoke name r0) ∧
      (revoke name r0).Users.Perm (r0.Users.erase name) ∧
      (r0.Users.Nodup → name ∉ (revoke name r0).Users)) ∧
    (∀ r0 ∈ r :: post,
      lookupDoc Repository.Name r0.Name (Remove env name s).2.repos = some r0) ∧
    lookupDoc User.Name name (Remove env name s).2.users = some u := by
  obtain ⟨-, hl, hn⟩ := userFindOne_ok env name s u hu
  have hsub : ∀ r0 ∈ pre ++ r :: post, r0 ∈ s.repos := by
    intro r0 h
    rw [← hsplit] at h
    exact (List.mem_filter.1 h).1
  have hall : ∀ r0 ∈ pre ++ r :: post, name ∈ r0.Users := by
    intro r0 h
    rw [← hsplit] at h
    simpa using (List.mem_filter.1 h).2
  have hrs : ((pre ++ r :: post).map Repository.Name).Nodup := by
    rw [← hsplit]
    exact (List.filter_sublist _).map Repository.Name |>.nodup hnd
  have hdisj : ∀ r0 ∈ r :: post, ¬ r0 ∈ pre := by
    intro r0 h1 h2
    exact (List.nodup_append.1 (List.Nodup.of_map _ hrs)).2.2 h2 h1
  have hH : u.handleAssociatedRepositories env s =
      (some (Error.store (StoreError.fault msg)),
        ⟨s.users, s.repos.map (fun d => if d ∈ pre then revoke name d else d),
          s.trace ++ pre.map (fun r0 => Call.repoUpdate r0.Name (revoke name r0)) ++
            [Call.repoUpdate r.Name (revoke name r)]⟩) := by
    unfold User.handleAssociatedRepositories
    rw [hn, repoFindAll_ok env name s hq]
    simp only
    have hg : guardLoop (s.repos.filter (fun r => decide (name ∈ r.Users))) = none := by
      rw [guardLoop_eq_none]
      intro r0 hr0
      have := List.mem_filter.1 hr0
      exact hsole r0 this.1 (by simpa using this.2)
    rw [hg]
    simp only
    rw [hsplit]
    exact revokeLoop_stops env name pre post r s msg hnd hsub hrs hall hpre hfail
  have hR : Remove env name s = u.handleAssociatedRepositories env s := by
    unfold Remove
    rw [hu]
    simp only
    rw [hH]
  have hkey : ∀ e : Repository,
      (if e ∈ pre then revoke name e else e).Name = e.Name := by
    intro e
    by_cases h : e ∈ pre
    · simp [h, revoke_name]
    · simp [h]
  have hlook : ∀ r0 ∈ s.repos, lookupDoc Repository.Name r0.Name (Remove env name s).2.repos =
      some (if r0 ∈ pre then revoke name r0 else r0) := by
    intro r0 hr0
    rw [hR, hH]
    exact lookupDoc_map_of_mem Repository.Name (fun d => if d ∈ pre then revoke name d else d)
      s.repos r0 hkey hnd hr0
  refine ⟨hH, hR, ?_, ?_, ?_⟩
  · intro r0 hr0
    have h1 := hlook r0 (hsub r0 (List.mem_append_left _ hr0))
    simp only [hr0, if_true] at h1
    have hp := revoke_perm name r0 (hall r0 (List.mem_append_left _ hr0))
    refine ⟨h1, hp, ?_⟩
    intro hnodup hmem
    have := hp.mem_iff.1 hmem
    exact ((hnodup.mem_erase_iff).1 this).1 rfl
  · intro r0 hr0
    have h1 := hlook r0 (hsub r0 (List.mem_append_right _ hr0))
    simp only [hdisj r0 hr0, if_false] at h1
    exact h1
  · rw [hR, hH]
    exact hl

theorem Remove_partial_failure_witness :
    User.handleAssociatedRepositories ⟨"x", ["k"]⟩ (Env.repoUpdateFails "B" "down")
        ⟨[⟨"x", ["k"]⟩], [⟨"A", ["x", "y"]⟩, ⟨"B", ["z", "x"]⟩, ⟨"C", ["x", "w"]⟩], []⟩ =
      (some (Error.store (StoreError.fault "down")),
        ⟨[⟨"x", ["k"]⟩],
          [(⟨"A", ["x", "y"]⟩ : Repository), ⟨"B", ["z", "x"]⟩, ⟨"C", ["x", "w"]⟩].map
            (fun d => if d ∈ [(⟨"A", ["x", "y"]⟩ : Repository)] then revoke "x" d else d),
          [] ++ [(⟨"A", ["x", "y"]⟩ : Repository)].map
              (fun r0 => Call.repoUpdate r0.Name (revoke "x" r0)) ++
            [Call.repoUpdate "B" (revoke "x" ⟨"B", ["z", "x"]⟩)]⟩) ∧
    Remove (Env.repoUpdateFails "B" "down") "x"
        ⟨[⟨"x", ["k"]⟩], [⟨"A", ["x", "y"]⟩, ⟨"B", ["z", "x"]⟩, ⟨"C", ["x", "w"]⟩], []⟩ =
      User.handleAssociatedRepositories ⟨"x", ["k"]⟩ (Env.repoUpdateFails "B" "down")
        ⟨[⟨"x", ["k"]⟩], [⟨"A", ["x", "y"]⟩, ⟨"B", ["z", "x"]⟩, ⟨"C", ["x", "w"]⟩], []⟩ ∧
    (∀ r0 ∈ [(⟨"A", ["x", "y"]⟩ : Repository)],
      lookupDoc Repository.Name r0.Name (Remove (Env.repoUpdateFails "B" "down") "x"
        ⟨[⟨"x", ["k"]⟩], [⟨"A", ["x", "y"]⟩, ⟨"B", ["z", "x"]⟩, ⟨"C", ["x", "w"]⟩], []⟩).2.repos
        = some (revoke "x" r0) ∧
      (revoke "x" r0).Users.Perm (r0.Users.erase "x") ∧
      (r0.Users.Nodup → "x" ∉ (revoke "x" r0).Users)) ∧
    (∀ r0 ∈ (⟨"B", ["z", "x"]⟩ : Repository) :: [⟨"C", ["x", "w"]⟩],
      lookupDoc Repository.Name r0.Name (Remove (Env.repoUpdateFails "B" "down") "x"
        ⟨[⟨"x", ["k"]⟩], [⟨"A", ["x", "y"]⟩, ⟨"B", ["z", "x"]⟩, ⟨"C", ["x", "w"]⟩], []⟩).2.repos
        = some r0) ∧
    lookupDoc User.Name "x" (Remove (Env.repoUpdateFails "B" "down") "x"
        ⟨[⟨"x", ["k"]⟩], [⟨"A", ["x", "y"]⟩, ⟨"B", ["z", "x"]⟩, ⟨"C", ["x", "w"]⟩], []⟩).2.users
      = some ⟨"x", ["k"]⟩ :=
  Remove_partial_failure (Env.repoUpdateFails "B" "down") "x"
    ⟨[⟨"x", ["k"]⟩], [⟨"A", ["x", "y"]⟩, ⟨"B", ["z", "x"]⟩, ⟨"C", ["x", "w"]⟩], []⟩ ⟨"x", ["k"]⟩
    [⟨"A", ["x", "y"]⟩] [⟨"C", ["x", "w"]⟩] ⟨"B", ["z", "x"]⟩ "down"
    rfl rfl (by decide) (by decide) (by decide) (by decide) (by decide)

end Gandalf
